import Mathlib

/-! # Incremental score deltas of `TranslationDelta.cpp`

A shallow embedding of `TranslationDelta::addLanguageModelScore`,
`TranslationUpdateDelta::TranslationUpdateDelta`,
`TranslationUpdateDelta::apply` and the placeholder constructor of
`PairedTranslationUpdateDelta`.

Conventions of the embedding
* `float` and `double` scores are exact integers (`Int`); rounding is not modelled.
* `size_t` values that are sizes of, or indices into, existing vectors are `Nat`.
  The one place where the source relies on unsigned wrap-around
  (`eoscount-1` in the computation of `maxend`) is computed modulo `2^64`.
* `targetPos = i + end + 1` of the post-context loop is computed without
  wrap-around; this is the source's value whenever `end + order ≤ 2^64`, in
  particular for every span end inside a hypothesis.
* `int start` is an `Int`; the conversions between `size_t` and `int` are the
  identity on the values that occur for sentences shorter than `2^31` words.
  The cast `(int)` in the word penalty is modelled (`sizeToInt`).
* `order-1` is a truncated subtraction; the source is only meaningful for
  `order ≥ 1` and the theorems assume it where it matters.
* An out-of-range `operator[]` (undefined behaviour in the source) makes the
  embedded function return `none`.
* The `IFVERBOSE`/`VERBOSE` blocks only print and are left out.
-/

namespace Moses

/-! ## Data model -/

/-- The address stored in one slot of `vector<const Word*> lmcontext`:
a null pointer (the value-initialised slot), the language model's
sentence-start array, `targetWords[pos]`, `targetPhrase.GetWord(pos)` or the
language model's sentence-end array. -/
inductive WordPtr where
  | null : WordPtr
  | sentenceStart : WordPtr
  | target (pos : Nat) : WordPtr
  | phrase (pos : Nat) : WordPtr
  | sentenceEnd : WordPtr
  deriving DecidableEq, Repr

/-- Modelled from the spec: `WordsRange`, the closed interval `[start, end]`
of target positions (its class declaration is not part of the source file). -/
structure WordsRange where
  startPos : Nat
  endPos : Nat
  deriving DecidableEq, Repr

/-- Modelled from the spec: `WordsRange::GetNumWordsCovered`, the number of
positions of the closed interval, `end - start + 1`. -/
def WordsRange.GetNumWordsCovered (r : WordsRange) : Nat :=
  r.endPos - r.startPos + 1

/-- The part of `LanguageModel` used by the source: the model is itself a
score producer (`producer` is its identity), `GetNGramOrder`,
`GetSentenceStartArray`, `GetSentenceEndArray` and `GetValue`. -/
structure LanguageModel (W P : Type) where
  producer : P
  order : Nat
  sentenceStart : W
  sentenceEnd : W
  GetValue : List W → Int

/-- State of the three fill loops: the buffer, the write cursor and the
number of sentence-end markers written so far. -/
structure FillState where
  lmcontext : List WordPtr
  contextPos : Nat
  eoscount : Nat
  deriving DecidableEq, Repr

/-- Counted loop `for (size_t i = i0; i < i0 + n; ++i) body`, threading the
state and stopping at the first undefined step. -/
def forRange {σ : Type} (body : Nat → σ → Option σ) : Nat → Nat → σ → Option σ
  | 0, _, s => some s
  | n + 1, i, s => (body i s).bind (forRange body n (i + 1))

/-- The statement `lmcontext[contextPos++] = p`. -/
def writeSlot (s : FillState) (p : WordPtr) : Option FillState :=
  if s.contextPos < s.lmcontext.length then
    some { s with lmcontext := s.lmcontext.set s.contextPos p, contextPos := s.contextPos + 1 }
  else none

/-- The expression `&(targetWords[pos])`. -/
def targetPtr {W : Type} (targetWords : List W) (pos : Nat) : Option WordPtr :=
  if pos < targetWords.length then some (WordPtr.target pos) else none

/-- Body of the pre-context loop (source lines 42-48). -/
def preContextStep {W : Type} (targetWords : List W) (start : Int) (i : Nat)
    (s : FillState) : Option FillState :=
  if start + (i : Int) < 0 then writeSlot s WordPtr.sentenceStart
  else (targetPtr targetWords ((i : Int) + start).toNat).bind (writeSlot s)

/-- Body of the target-phrase loop (source lines 51-53). -/
def phraseStep {W : Type} (targetPhrase : List W) (i : Nat) (s : FillState) : Option FillState :=
  if i < targetPhrase.length then writeSlot s (WordPtr.phrase i) else none

/-- Body of the post-context loop (source lines 57-65). `targetPos` is the
sum itself; it is the source's `size_t` value whenever it is below `2^64`. -/
def postContextStep {W : Type} (targetWords : List W) (targetSegment : WordsRange) (i : Nat)
    (s : FillState) : Option FillState :=
  let targetPos := i + targetSegment.endPos + 1
  if targetPos ≥ targetWords.length then
    (writeSlot s WordPtr.sentenceEnd).map fun t => { t with eoscount := t.eoscount + 1 }
  else (targetPtr targetWords targetPos).bind (writeSlot s)

/-- Body of the post-context loop with `targetPos` in `size_t` arithmetic,
modulo `2^64`; `postContextStep_eq_sizeT` shows that it is `postContextStep`
as long as the sum does not reach `2^64`. -/
def postContextStepSizeT {W : Type} (targetWords : List W) (targetSegment : WordsRange)
    (i : Nat) (s : FillState) : Option FillState :=
  let targetPos := (i + targetSegment.endPos + 1) % 2 ^ 64
  if targetPos ≥ targetWords.length then
    (writeSlot s WordPtr.sentenceEnd).map fun t => { t with eoscount := t.eoscount + 1 }
  else (targetPtr targetWords targetPos).bind (writeSlot s)

/-- Source lines 35-65: allocate `lmcontext` and run the three fill loops. -/
def fillContext {W : Type} (order : Nat) (targetWords targetPhrase : List W)
    (targetSegment : WordsRange) : Option FillState :=
  let start : Int := (targetSegment.startPos : Int) - ((order - 1 : Nat) : Int)
  let s0 : FillState :=
    { lmcontext := List.replicate (targetPhrase.length + 2 * (order - 1)) WordPtr.null
      contextPos := 0
      eoscount := 0 }
  (forRange (preContextStep targetWords start) (order - 1) 0 s0).bind fun s1 =>
  (forRange (phraseStep targetPhrase) targetPhrase.length 0 s1).bind fun s2 =>
  forRange (postContextStep targetWords targetSegment) (order - 1) 0 s2

/-- Source line 88: `min(lmcontext.size(), lmcontext.size() - (eoscount-1))`
in `size_t` arithmetic. -/
def maxend (size eoscount : Nat) : Nat :=
  min size ((size + 2 ^ 64 - (eoscount + 2 ^ 64 - 1) % 2 ^ 64) % 2 ^ 64)

/-- Source line 91: the slots visited by the inner loop, `j = ngramstart`
while `j < ngramstart+order && j < maxend`. -/
def ngramSlots (order maxend ngramstart : Nat) : List Nat :=
  List.range' ngramstart (min (ngramstart + order) maxend - ngramstart)

/-- Source lines 90-93: the slots `lmcontext[j]` pushed onto `ngram`, for
`j = ngramstart` while `j < ngramstart+order && j < maxend`. -/
def buildNgram (lmcontext : List WordPtr) (order maxend ngramstart : Nat) :
    Option (List WordPtr) :=
  (ngramSlots order maxend ngramstart).mapM fun j => lmcontext[j]?

/-- Source lines 88-95 without the accumulation: the n-grams handed to
`GetValue`, in call order, one for each
`ngramstart < lmcontext.size() - (order-1)`. -/
def scoredNgramPtrs (order : Nat) (s : FillState) : Option (List (List WordPtr)) :=
  (List.range (s.lmcontext.length - (order - 1))).mapM
    (buildNgram s.lmcontext order (maxend s.lmcontext.length s.eoscount))

/-- Dereference of a stored address. -/
def deref {W P : Type} (lm : LanguageModel W P) (targetWords targetPhrase : List W) :
    WordPtr → Option W
  | WordPtr.null => none
  | WordPtr.sentenceStart => some lm.sentenceStart
  | WordPtr.target pos => targetWords[pos]?
  | WordPtr.phrase pos => targetPhrase[pos]?
  | WordPtr.sentenceEnd => some lm.sentenceEnd

/-- The n-grams handed to `GetValue`, as pointer lists. -/
def lmNgramPtrs {W P : Type} (lm : LanguageModel W P) (targetWords targetPhrase : List W)
    (targetSegment : WordsRange) : Option (List (List WordPtr)) :=
  (fillContext lm.order targetWords targetPhrase targetSegment).bind (scoredNgramPtrs lm.order)

/-- The n-grams handed to `GetValue`, as word lists. -/
def lmNgrams {W P : Type} (lm : LanguageModel W P) (targetWords targetPhrase : List W)
    (targetSegment : WordsRange) : Option (List (List W)) :=
  (lmNgramPtrs lm targetWords targetPhrase targetSegment).bind fun gs =>
    gs.mapM fun g => g.mapM (deref lm targetWords targetPhrase)

/-- The words that the filled buffer points to (what the debug block prints). -/
def lmContextWords {W P : Type} (lm : LanguageModel W P) (targetWords targetPhrase : List W)
    (targetSegment : WordsRange) : Option (List W) :=
  (fillContext lm.order targetWords targetPhrase targetSegment).bind fun s =>
    s.lmcontext.mapM (deref lm targetWords targetPhrase)

/-- Source lines 85-95: `lmscore` starts at `0` and every scored n-gram adds
its `GetValue`. -/
def lmScore {W P : Type} (lm : LanguageModel W P) (targetWords targetPhrase : List W)
    (targetSegment : WordsRange) : Option Int :=
  (lmNgrams lm targetWords targetPhrase targetSegment).map fun gs =>
    gs.foldl (fun lmscore ngram => lmscore + lm.GetValue ngram) 0

/-! ## Score vectors and the global configuration -/

/-- Modelled from the spec: the FeatureScoreVector (`ScoreComponentCollection`,
declared outside the source file): for every producer a sequence of scores,
here the score at each feature index; a producer that is absent holds zero
everywhere. -/
abbrev ScoreComponentCollection (P : Type) := P → Nat → Int

/-- Modelled from the spec: the default-constructed vector, all zero. -/
def ScoreComponentCollection.zero {P : Type} : ScoreComponentCollection P :=
  fun _ _ => 0

/-- Modelled from the spec: `assign(producer, scores)` overwrites the score
sequence of `producer`; the source only uses the overload that stores one
score. -/
def ScoreComponentCollection.Assign {P : Type} [DecidableEq P]
    (v : ScoreComponentCollection P) (sp : P) (score : Int) : ScoreComponentCollection P :=
  fun q k => if q = sp then (if k = 0 then score else 0) else v q k

/-- Modelled from the spec: `plusEquals(other)`, element-wise per producer. -/
def ScoreComponentCollection.PlusEquals {P : Type}
    (v rhs : ScoreComponentCollection P) : ScoreComponentCollection P :=
  fun q k => v q k + rhs q k

/-- Modelled from the spec: `minusEquals(other)`, element-wise per producer. -/
def ScoreComponentCollection.MinusEquals {P : Type}
    (v rhs : ScoreComponentCollection P) : ScoreComponentCollection P :=
  fun q k => v q k - rhs q k

/-- Modelled from the spec: the flattening used by `innerProduct`, all
producer score sequences in the registry's producer-then-feature-index
order. -/
def ScoreComponentCollection.flatten {P : Type} (registry : List (P × Nat))
    (v : ScoreComponentCollection P) : List Int :=
  registry.flatMap fun e => (List.range e.2).map (v e.1)

/-- Modelled from the spec: `innerProduct(weights)`, the dot product of the
flattened vector with the weight vector. -/
def ScoreComponentCollection.InnerProduct {P : Type} (registry : List (P × Nat))
    (v : ScoreComponentCollection P) (weights : List Int) : Int :=
  (List.zipWith (fun x w => x * w) (v.flatten registry) weights).sum

/-- Modelled from the spec: the global registry behind `StaticData::Instance()`:
the active language models (`GetAllLM`), the word-penalty producer
(`GetWordPenaltyProducer`), the weight vector (`GetAllWeights`) and the
producers with their feature counts in the order the weights are laid out. -/
structure StaticData (W P : Type) where
  allLM : List (LanguageModel W P)
  wordPenaltyProducer : P
  allWeights : List Int
  scoreProducers : List (P × Nat)

/-- The part of `TranslationOption` used by the source: `GetTargetPhrase` and
`GetScoreBreakdown`. -/
structure TranslationOption (W P : Type) where
  targetPhrase : List W
  scoreBreakdown : ScoreComponentCollection P

/-- The members of the base class `TranslationDelta`. -/
structure TranslationDelta (P : Type) where
  m_scores : ScoreComponentCollection P
  m_score : Int

/-- The class `TranslationUpdateDelta`: the base members and `m_option`. -/
structure TranslationUpdateDelta (W P : Type) extends TranslationDelta P where
  m_option : TranslationOption W P

/-! ## The operations of the source file -/

/-- Source lines 30-99, `TranslationDelta::addLanguageModelScore`, on the
member `m_scores` (the only member it touches): for every language model in
turn, `m_scores.Assign(lm, lmscore)`. -/
def addLanguageModelScore {W P : Type} [DecidableEq P] (sd : StaticData W P)
    (m_scores : ScoreComponentCollection P) (targetWords targetPhrase : List W)
    (targetSegment : WordsRange) : Option (ScoreComponentCollection P) :=
  sd.allLM.foldlM
    (fun scores lm =>
      (lmScore lm targetWords targetPhrase targetSegment).map fun lmscore =>
        scores.Assign lm.producer lmscore)
    m_scores

/-- The conversion `(int)` of a `size_t` value: the low 32 bits, read in two's
complement. -/
def sizeToInt (n : Nat) : Int :=
  if n % 2 ^ 32 < 2 ^ 31 then ((n % 2 ^ 32 : Nat) : Int)
  else ((n % 2 ^ 32 : Nat) : Int) - 2 ^ 32

/-- Source line 111: `float penalty = -((int)targetSegment.GetNumWordsCovered())`. -/
def wordPenalty (targetSegment : WordsRange) : Int :=
  -(sizeToInt targetSegment.GetNumWordsCovered)

/-- Source lines 102-141, the constructor of `TranslationUpdateDelta`. -/
def TranslationUpdateDelta.new {W P : Type} [DecidableEq P] (sd : StaticData W P)
    (targetWords : List W) (option : TranslationOption W P) (targetSegment : WordsRange) :
    Option (TranslationUpdateDelta W P) :=
  let m_scores := ScoreComponentCollection.zero.PlusEquals option.scoreBreakdown
  let penalty : Int := wordPenalty targetSegment
  let m_scores := m_scores.Assign sd.wordPenaltyProducer penalty
  (addLanguageModelScore sd m_scores targetWords option.targetPhrase targetSegment).map
    fun m_scores =>
      { m_option := option
        m_scores := m_scores
        m_score := m_scores.InnerProduct sd.scoreProducers sd.allWeights }

/-- What is left behind by one call of `apply`: the delta itself, the sample
and the baseline delta that was passed by const reference. -/
structure ApplyOutcome (W P S : Type) where
  delta : TranslationUpdateDelta W P
  sample : S
  noChangeDelta : TranslationDelta P

/-- Source lines 143-146, `TranslationUpdateDelta::apply`; the external
`Sample::ChangeTarget` is a parameter. -/
def TranslationUpdateDelta.apply {W P S : Type}
    (ChangeTarget : TranslationOption W P → ScoreComponentCollection P → S → S)
    (self : TranslationUpdateDelta W P) (sample : S) (noChangeDelta : TranslationDelta P) :
    ApplyOutcome W P S :=
  let m_scores := self.m_scores.MinusEquals noChangeDelta.m_scores
  { delta := { self with m_scores := m_scores }
    sample := ChangeTarget self.m_option m_scores sample
    noChangeDelta := noChangeDelta }

/-- Source lines 157-161, the constructor of `PairedTranslationUpdateDelta`.
Its body is the comment `//TODO`: no argument is read and nothing is computed,
so the object has the base-class members as they are created, `m_scores`
default-constructed (all zero) and `m_score` holding whatever value
`m_score0` the base class leaves in it. -/
def PairedTranslationUpdateDelta.new {W P : Type} (m_score0 : Int) (_targetWords : List W)
    (_leftOption _rightOption : TranslationOption W P)
    (_leftTargetSegment _rightTargetSegment : WordsRange) : TranslationDelta P :=
  { m_scores := ScoreComponentCollection.zero
    m_score := m_score0 }

/-! ## Reference definitions that follow the specification's words -/

/-- Specification side: the hypothesis after replacing the span by a phrase. -/
def replaceSpan {W : Type} (targetWords : List W) (targetSegment : WordsRange)
    (targetPhrase : List W) : List W :=
  targetWords.take targetSegment.startPos ++ targetPhrase ++
    targetWords.drop (targetSegment.endPos + 1)

/-- Specification side: full language-model rescoring of a sentence; every
word and then the single sentence end is scored once with its `N-1`
preceding words, the sentence being padded with sentence starts. -/
def fullLMScore {W P : Type} (lm : LanguageModel W P) (sentence : List W) : Int :=
  let padded := List.replicate (lm.order - 1) lm.sentenceStart ++ sentence ++ [lm.sentenceEnd]
  ((List.range (sentence.length + 1)).map fun k =>
    lm.GetValue ((padded.drop k).take lm.order)).sum

/-- Specification side: the weighted score of a whole sentence by full
rescoring: the translation scores of its phrases, word penalty minus the
sentence length, and every language model's full score. -/
def fullWeightedScore {W P : Type} [DecidableEq P] (sd : StaticData W P)
    (translationScores : ScoreComponentCollection P) (sentence : List W) : Int :=
  let v := translationScores.Assign sd.wordPenaltyProducer (-(sentence.length : Int))
  let v := sd.allLM.foldl (fun v lm => v.Assign lm.producer (fullLMScore lm sentence)) v
  v.InnerProduct sd.scoreProducers sd.allWeights

/-- Specification side: the usable buffer length of section 4.2, step 5. -/
def usableLength (len order eosCount : Nat) : Nat :=
  if eosCount > 1 then len + 2 * (order - 1) - (eosCount - 1) else len + 2 * (order - 1)

/-- Specification side: the weighted score after the replacement minus the
weighted score before it, both by full rescoring. The phrases outside the span
carry the same translation scores before and after and are left out;
`current` is the option that occupies the span and `option` the replacement. -/
def fullRescoringDifference {W P : Type} [DecidableEq P] (sd : StaticData W P)
    (targetWords : List W) (current option : TranslationOption W P)
    (targetSegment : WordsRange) : Int :=
  fullWeightedScore sd option.scoreBreakdown
      (replaceSpan targetWords targetSegment option.targetPhrase)
    - fullWeightedScore sd current.scoreBreakdown targetWords

/-- The weighted score of the update delta for `option` minus the weighted
score of the no-change delta, which is the update delta built for the option
`current` that occupies the span. -/
def deltaDifference {W P : Type} [DecidableEq P] (sd : StaticData W P)
    (targetWords : List W) (current option : TranslationOption W P)
    (targetSegment : WordsRange) : Option Int :=
  (TranslationUpdateDelta.new sd targetWords option targetSegment).bind fun update =>
  (TranslationUpdateDelta.new sd targetWords current targetSegment).map fun noChange =>
    update.m_scores.InnerProduct sd.scoreProducers sd.allWeights
      - noChange.m_scores.InnerProduct sd.scoreProducers sd.allWeights

/-! ## Closed forms used in the statements -/

/-- The addresses written by the pre-context loop. -/
def prePtrs (order startPos : Nat) : List WordPtr :=
  (List.range (order - 1)).map fun i =>
    if startPos + i < order - 1 then WordPtr.sentenceStart
    else WordPtr.target (startPos + i - (order - 1))

/-- The addresses written by the target-phrase loop. -/
def phrasePtrs (len : Nat) : List WordPtr :=
  (List.range len).map WordPtr.phrase

/-- The addresses written by the post-context loop. -/
def postPtrs (order endPos size : Nat) : List WordPtr :=
  (List.range (order - 1)).map fun i =>
    if size ≤ i + endPos + 1 then WordPtr.sentenceEnd else WordPtr.target (i + endPos + 1)

/-- The number of post-context positions at or beyond the end of the
hypothesis. -/
def eosCount (order endPos size : Nat) : Nat :=
  (order - 1) - min (order - 1) (size - (endPos + 1))

/-- The n-gram that starts at offset `k` of a buffer: at most `order` slots,
none at or beyond `mx`. -/
def window {α : Type} (buf : List α) (order mx k : Nat) : List α :=
  (buf.drop k).take (min (k + order) mx - k)

/-- The word behind an address, with the sentence start standing in for an
address that cannot be dereferenced. -/
def derefD {W P : Type} (lm : LanguageModel W P) (targetWords targetPhrase : List W)
    (p : WordPtr) : W :=
  (deref lm targetWords targetPhrase p).getD lm.sentenceStart

/-- The filled buffer, in closed form. -/
def contextPtrs (order : Nat) (targetSegment : WordsRange) (len size : Nat) : List WordPtr :=
  prePtrs order targetSegment.startPos ++ phrasePtrs len ++ postPtrs order targetSegment.endPos size

/-- The language-model score, `0` standing in for an undefined one. -/
def lmScoreD {W P : Type} (lm : LanguageModel W P) (targetWords targetPhrase : List W)
    (targetSegment : WordsRange) : Int :=
  (lmScore lm targetWords targetPhrase targetSegment).getD 0

/-- The effect of `addLanguageModelScore` on the score vector when every
language-model score is defined: one `Assign` for each model, in order. -/
def assignLMScores {W P : Type} [DecidableEq P] (lms : List (LanguageModel W P))
    (targetWords targetPhrase : List W) (targetSegment : WordsRange)
    (m_scores : ScoreComponentCollection P) : ScoreComponentCollection P :=
  lms.foldl
    (fun scores lm => scores.Assign lm.producer (lmScoreD lm targetWords targetPhrase targetSegment))
    m_scores

/-! ## Concrete inputs -/

/-- A language model over strings with the usual sentinels, of the given
order and with the given scoring function. -/
def exampleLM (order : Nat) (score : List String → Int) : LanguageModel String Nat :=
  { producer := 0
    order := order
    sentenceStart := "<s>"
    sentenceEnd := "</s>"
    GetValue := score }

/-- A configuration with the one language model `exampleLM order score`
(producer `0`), the word-penalty producer `1` and both weights `1`. -/
def exampleSD (order : Nat) (score : List String → Int) : StaticData String Nat :=
  { allLM := [exampleLM order score]
    wordPenaltyProducer := 1
    allWeights := [1, 1]
    scoreProducers := [(0, 1), (1, 1)] }

/-- A translation option with the given target phrase and no scores of its
own. -/
def exampleOption (phrase : List String) : TranslationOption String Nat :=
  { targetPhrase := phrase
    scoreBreakdown := ScoreComponentCollection.zero }

/-- A scoring function that gives `1` to the bigram `(Hi, </s>)` alone. -/
def scoreHiEnd (ngram : List String) : Int :=
  if ngram = ["Hi", "</s>"] then 1 else 0

/-- A scoring function that gives `1` to every n-gram holding a sentence end. -/
def scoreEnd (ngram : List String) : Int :=
  if "</s>" ∈ ngram then 1 else 0

/-- A translation option whose own score breakdown holds `5` for producer `0`
(the language model of `exampleSD`) and `7` for producer `1` (the word
penalty). -/
def exampleScoredOption (phrase : List String) : TranslationOption String Nat :=
  { targetPhrase := phrase
    scoreBreakdown := fun p k => if k = 0 then (if p = 0 then 5 else if p = 1 then 7 else 0) else 0 }

/-- A sample that is the log of the `ChangeTarget` calls it has received: the
target phrase of the option and the word-penalty entry (producer `1`) of the
score vector, newest call first. -/
def logChangeTarget (option : TranslationOption String Nat)
    (scores : ScoreComponentCollection Nat) (calls : List (List String × Int)) :
    List (List String × Int) :=
  (option.targetPhrase, scores 1 0) :: calls

/-! ## The fill loops -/

theorem set_length_append (done rest : List WordPtr) (r p : WordPtr) :
    (done ++ r :: rest).set done.length p = done ++ p :: rest := by
  induction done with
  | nil => rfl
  | cons a done ih => simp [ih]

theorem forRange_fill (body : Nat → FillState → Option FillState) (f : Nat → WordPtr)
    (g : Nat → Nat) (hi : Nat)
    (hbody : ∀ i s, i < hi → s.contextPos < s.lmcontext.length →
      body i s = some { lmcontext := s.lmcontext.set s.contextPos (f i),
                        contextPos := s.contextPos + 1,
                        eoscount := s.eoscount + g i }) :
    ∀ (n i0 : Nat) (done rest : List WordPtr) (ec : Nat), n ≤ rest.length → i0 + n ≤ hi →
      forRange body n i0 { lmcontext := done ++ rest, contextPos := done.length, eoscount := ec }
        = some { lmcontext := done ++ (List.range' i0 n).map f ++ rest.drop n,
                 contextPos := done.length + n,
                 eoscount := ec + ((List.range' i0 n).map g).sum } := by
  intro n
  induction n with
  | zero => intro i0 done rest ec _ _; simp [forRange]
  | succ n ih =>
    intro i0 done rest ec hlen hhi
    cases rest with
    | nil => simp at hlen
    | cons r rest =>
      have hb := hbody i0 { lmcontext := done ++ r :: rest, contextPos := done.length, eoscount := ec }
        (by omega) (by simp)
      simp only [forRange, hb, Option.some_bind, set_length_append]
      have h1 : done ++ f i0 :: rest = (done ++ [f i0]) ++ rest := by simp
      have h2 : done.length + 1 = (done ++ [f i0]).length := by simp
      rw [h1, h2, ih (i0 + 1) (done ++ [f i0]) rest (ec + g i0) (by simpa using hlen) (by omega)]
      simp [List.range'_succ, Nat.add_assoc, Nat.add_comm 1 n]

theorem eos_sum (e n : Nat) (m : Nat) :
    ((List.range m).map fun i => if n ≤ i + e + 1 then 1 else 0).sum
      = m - min m (n - (e + 1)) := by
  induction m with
  | zero => simp
  | succ m ih =>
    rw [List.range_succ, List.map_append, List.sum_append, ih]
    simp only [List.map_cons, List.map_nil, List.sum_cons, List.sum_nil]
    split <;> omega

theorem postPtrs_split (order e n : Nat) :
    postPtrs order e n
      = (List.range (min (order - 1) (n - (e + 1)))).map (fun i => WordPtr.target (i + e + 1))
        ++ List.replicate (eosCount order e n) WordPtr.sentenceEnd := by
  apply List.ext_getElem?
  intro i
  unfold postPtrs eosCount
  by_cases h1 : i < min (order - 1) (n - (e + 1))
  · have h2 : i < order - 1 := by omega
    have h3 : ¬ n ≤ i + e + 1 := by omega
    rw [List.getElem?_append_left (by simpa using h1)]
    simp [List.getElem?_map, List.getElem?_range h1, List.getElem?_range h2, h3]
  · rw [List.getElem?_append_right (by simpa using Nat.le_of_not_lt h1)]
    by_cases h2 : i < order - 1
    · have h3 : n ≤ i + e + 1 := by omega
      have h4 : i - min (order - 1) (n - (e + 1))
          < order - 1 - min (order - 1) (n - (e + 1)) := by omega
      simp [List.getElem?_map, List.getElem?_range h2, h3, List.getElem?_replicate, h4]
    · have h4 : ¬ i - min (order - 1) (n - (e + 1))
          < order - 1 - min (order - 1) (n - (e + 1)) := by omega
      have h5 : order - 1 ≤ i := by omega
      simp [List.getElem?_map, List.getElem?_replicate, h4, List.getElem?_eq_none, h5]

theorem forRange_fill_state (body : Nat → FillState → Option FillState) (f : Nat → WordPtr)
    (g : Nat → Nat) (hi : Nat)
    (hbody : ∀ i s, i < hi → s.contextPos < s.lmcontext.length →
      body i s = some { lmcontext := s.lmcontext.set s.contextPos (f i),
                        contextPos := s.contextPos + 1,
                        eoscount := s.eoscount + g i })
    (n i0 : Nat) (s : FillState) (done rest : List WordPtr)
    (hs : s.lmcontext = done ++ rest) (hp : s.contextPos = done.length)
    (hn : n ≤ rest.length) (hhi : i0 + n ≤ hi) :
    forRange body n i0 s
      = some { lmcontext := done ++ (List.range' i0 n).map f ++ rest.drop n,
               contextPos := done.length + n,
               eoscount := s.eoscount + ((List.range' i0 n).map g).sum } := by
  cases s with
  | mk c p e =>
    simp only at hs hp
    subst hs hp
    exact forRange_fill body f g hi hbody n i0 done rest e hn hhi

theorem preContextStep_eq {W : Type} (order : Nat) (targetWords : List W) (startPos : Nat)
    (hstart : order ≤ 1 ∨ startPos ≤ targetWords.length) (i : Nat) (s : FillState)
    (hi : i < order - 1)
    (hs : s.contextPos < s.lmcontext.length) :
    preContextStep targetWords ((startPos : Int) - ((order - 1 : Nat) : Int)) i s
      = some { lmcontext := s.lmcontext.set s.contextPos
                 (if startPos + i < order - 1 then WordPtr.sentenceStart
                  else WordPtr.target (startPos + i - (order - 1))),
               contextPos := s.contextPos + 1,
               eoscount := s.eoscount + 0 } := by
  unfold preContextStep
  by_cases hneg : startPos + i < order - 1
  · have : (startPos : Int) - ((order - 1 : Nat) : Int) + (i : Int) < 0 := by omega
    simp [this, hneg, writeSlot, hs]
  · have h0 : ¬ (startPos : Int) - ((order - 1 : Nat) : Int) + (i : Int) < 0 := by omega
    have h1 : ((i : Int) + ((startPos : Int) - ((order - 1 : Nat) : Int))).toNat
        = startPos + i - (order - 1) := by omega
    have h2 : startPos + i - (order - 1) < targetWords.length := by omega
    simp [h0, hneg, h1, targetPtr, h2, writeSlot, hs]

theorem phraseStep_eq {W : Type} (targetPhrase : List W) (i : Nat) (s : FillState)
    (hi : i < targetPhrase.length) (hs : s.contextPos < s.lmcontext.length) :
    phraseStep targetPhrase i s
      = some { lmcontext := s.lmcontext.set s.contextPos (WordPtr.phrase i),
               contextPos := s.contextPos + 1,
               eoscount := s.eoscount + 0 } := by
  simp [phraseStep, hi, writeSlot, hs]

theorem postContextStep_eq {W : Type} (targetWords : List W) (targetSegment : WordsRange)
    (i : Nat) (s : FillState) (hs : s.contextPos < s.lmcontext.length) :
    postContextStep targetWords targetSegment i s
      = some { lmcontext := s.lmcontext.set s.contextPos
                 (if targetWords.length ≤ i + targetSegment.endPos + 1 then WordPtr.sentenceEnd
                  else WordPtr.target (i + targetSegment.endPos + 1)),
               contextPos := s.contextPos + 1,
               eoscount := s.eoscount
                 + (if targetWords.length ≤ i + targetSegment.endPos + 1 then 1 else 0) } := by
  unfold postContextStep
  by_cases hge : targetWords.length ≤ i + targetSegment.endPos + 1
  · simp [hge, writeSlot, hs]
  · have hlt : i + targetSegment.endPos + 1 < targetWords.length := by omega
    simp [hge, targetPtr, hlt, writeSlot, hs]

theorem postContextStep_eq_sizeT {W : Type} (targetWords : List W) (targetSegment : WordsRange)
    (i : Nat) (s : FillState) (h : i + targetSegment.endPos + 1 < 2 ^ 64) :
    postContextStepSizeT targetWords targetSegment i s
      = postContextStep targetWords targetSegment i s := by
  unfold postContextStepSizeT postContextStep
  rw [Nat.mod_eq_of_lt h]

theorem prePtrs_length (order startPos : Nat) : (prePtrs order startPos).length = order - 1 := by
  simp [prePtrs]

theorem phrasePtrs_length (len : Nat) : (phrasePtrs len).length = len := by
  simp [phrasePtrs]

theorem postPtrs_length (order e n : Nat) : (postPtrs order e n).length = order - 1 := by
  simp [postPtrs]

theorem fillContext_eq {W : Type} (order : Nat) (targetWords targetPhrase : List W)
    (targetSegment : WordsRange)
    (hstart : order ≤ 1 ∨ targetSegment.startPos ≤ targetWords.length) :
    fillContext order targetWords targetPhrase targetSegment
      = some { lmcontext := prePtrs order targetSegment.startPos ++ phrasePtrs targetPhrase.length
                              ++ postPtrs order targetSegment.endPos targetWords.length,
               contextPos := targetPhrase.length + 2 * (order - 1),
               eoscount := eosCount order targetSegment.endPos targetWords.length } := by
  have h1 : forRange
      (preContextStep targetWords ((targetSegment.startPos : Int) - ((order - 1 : Nat) : Int)))
      (order - 1) 0
      { lmcontext := List.replicate (targetPhrase.length + 2 * (order - 1)) WordPtr.null,
        contextPos := 0, eoscount := 0 }
      = some { lmcontext := prePtrs order targetSegment.startPos
                 ++ List.replicate (targetPhrase.length + (order - 1)) WordPtr.null,
               contextPos := order - 1, eoscount := 0 } := by
    rw [forRange_fill_state _ _ (fun _ => 0) (order - 1)
      (fun i s hi hs => preContextStep_eq order targetWords targetSegment.startPos hstart i s hi hs)
      (order - 1) 0 _ [] (List.replicate (targetPhrase.length + 2 * (order - 1)) WordPtr.null)
      rfl rfl (by simp; omega) (by omega)]
    have : targetPhrase.length + 2 * (order - 1) - (order - 1)
        = targetPhrase.length + (order - 1) := by omega
    simp [prePtrs, List.range_eq_range', this]
  have h2 : forRange (phraseStep targetPhrase) targetPhrase.length 0
      { lmcontext := prePtrs order targetSegment.startPos
          ++ List.replicate (targetPhrase.length + (order - 1)) WordPtr.null,
        contextPos := order - 1, eoscount := 0 }
      = some { lmcontext := prePtrs order targetSegment.startPos
                 ++ phrasePtrs targetPhrase.length ++ List.replicate (order - 1) WordPtr.null,
               contextPos := order - 1 + targetPhrase.length, eoscount := 0 } := by
    rw [forRange_fill_state _ _ (fun _ => 0) targetPhrase.length
      (fun i s hi hs => phraseStep_eq targetPhrase i s hi hs)
      targetPhrase.length 0 _ (prePtrs order targetSegment.startPos)
      (List.replicate (targetPhrase.length + (order - 1)) WordPtr.null)
      rfl (by simp [prePtrs]) (by simp) (by omega)]
    simp [prePtrs, phrasePtrs, List.range_eq_range']
  have h3 : forRange (postContextStep targetWords targetSegment) (order - 1) 0
      { lmcontext := prePtrs order targetSegment.startPos
          ++ phrasePtrs targetPhrase.length ++ List.replicate (order - 1) WordPtr.null,
        contextPos := order - 1 + targetPhrase.length, eoscount := 0 }
      = some { lmcontext := prePtrs order targetSegment.startPos
                 ++ phrasePtrs targetPhrase.length
                 ++ postPtrs order targetSegment.endPos targetWords.length,
               contextPos := targetPhrase.length + 2 * (order - 1),
               eoscount := eosCount order targetSegment.endPos targetWords.length } := by
    rw [forRange_fill_state _ _ _ (order - 1)
      (fun i s _ hs => postContextStep_eq targetWords targetSegment i s hs)
      (order - 1) 0 _ (prePtrs order targetSegment.startPos ++ phrasePtrs targetPhrase.length)
      (List.replicate (order - 1) WordPtr.null)
      rfl (by simp [prePtrs, phrasePtrs]) (by simp) (by omega)]
    have hsum := eos_sum targetSegment.endPos targetWords.length (order - 1)
    rw [List.range_eq_range'] at hsum
    simp only [hsum]
    simp [prePtrs, phrasePtrs, postPtrs, eosCount, List.range_eq_range']
    omega
  simp only [fillContext, h1, h2, h3, Option.some_bind]

/-! ## The scoring loop -/

theorem mapM_eq_some_map {α β : Type} (f : α → Option β) (g : α → β) (l : List α)
    (h : ∀ x ∈ l, f x = some (g x)) : l.mapM f = some (l.map g) := by
  induction l with
  | nil => rfl
  | cons a l ih =>
    have ha := h a (by simp)
    have hl := ih (fun x hx => h x (by simp [hx]))
    rw [List.mapM_cons, ha, hl]
    rfl

theorem mapM_getElem?_range' {α : Type} (buf : List α) (m k : Nat) (h : k + m ≤ buf.length) :
    (List.range' k m).mapM (fun j => buf[j]?) = some ((buf.drop k).take m) := by
  induction m generalizing k with
  | zero => rfl
  | succ m ih =>
    have hk : k < buf.length := by omega
    have hl := ih (k + 1) (by omega)
    rw [List.drop_eq_getElem_cons hk, List.range'_succ, List.mapM_cons, hl,
      List.getElem?_eq_getElem hk]
    rfl

theorem maxend_le (size eoscount : Nat) : maxend size eoscount ≤ size := by
  unfold maxend
  exact Nat.min_le_left _ _

theorem maxend_of_pos (size eoscount : Nat) (hsize : size < 2 ^ 64) (h1 : 1 ≤ eoscount)
    (h2 : eoscount ≤ size) : maxend size eoscount = size - (eoscount - 1) := by
  unfold maxend
  have h64 : (2 : Nat) ^ 64 = 18446744073709551616 := by norm_num
  rw [h64] at hsize ⊢
  omega

theorem maxend_zero (size : Nat) (hsize : size < 2 ^ 64 - 1) : maxend size 0 = size := by
  unfold maxend
  have h64 : (2 : Nat) ^ 64 = 18446744073709551616 := by norm_num
  rw [h64] at hsize ⊢
  omega

theorem buildNgram_eq (lmcontext : List WordPtr) (order mx k : Nat)
    (hmx : mx ≤ lmcontext.length) :
    buildNgram lmcontext order mx k
      = some ((lmcontext.drop k).take (min (k + order) mx - k)) := by
  unfold buildNgram ngramSlots
  by_cases hk : k ≤ mx
  · exact mapM_getElem?_range' lmcontext _ k (by omega)
  · have : min (k + order) mx - k = 0 := by omega
    rw [this]
    rfl

theorem scoredNgramPtrs_eq (order : Nat) (s : FillState) :
    scoredNgramPtrs order s
      = some ((List.range (s.lmcontext.length - (order - 1))).map
          (window s.lmcontext order (maxend s.lmcontext.length s.eoscount))) := by
  unfold scoredNgramPtrs
  apply mapM_eq_some_map
  intro k _
  exact buildNgram_eq s.lmcontext order _ k (maxend_le _ _)

/-! ## Dereferencing the buffer -/

theorem mem_prePtrs (order startPos : Nat) (p : WordPtr) (hp : p ∈ prePtrs order startPos) :
    p = WordPtr.sentenceStart ∨
      ∃ pos, p = WordPtr.target pos ∧ pos < startPos ∧ startPos ≤ pos + (order - 1)
        ∧ 2 ≤ order := by
  simp only [prePtrs, List.mem_map, List.mem_range] at hp
  obtain ⟨i, hi, rfl⟩ := hp
  by_cases h : startPos + i < order - 1
  · simp [h]
  · right
    exact ⟨startPos + i - (order - 1), by simp [h], by omega, by omega, by omega⟩

theorem mem_phrasePtrs (len : Nat) (p : WordPtr) (hp : p ∈ phrasePtrs len) :
    ∃ pos, p = WordPtr.phrase pos ∧ pos < len := by
  simp only [phrasePtrs, List.mem_map, List.mem_range] at hp
  obtain ⟨i, hi, rfl⟩ := hp
  exact ⟨i, rfl, hi⟩

theorem mem_postPtrs (order e n : Nat) (p : WordPtr) (hp : p ∈ postPtrs order e n) :
    p = WordPtr.sentenceEnd ∨
      ∃ pos, p = WordPtr.target pos ∧ pos < n ∧ e < pos ∧ pos ≤ e + (order - 1) := by
  simp only [postPtrs, List.mem_map, List.mem_range] at hp
  obtain ⟨i, hi, rfl⟩ := hp
  by_cases h : n ≤ i + e + 1
  · simp [h]
  · right
    exact ⟨i + e + 1, by simp [h], by omega, by omega, by omega⟩

theorem deref_contextPtrs {W P : Type} (lm : LanguageModel W P) (targetWords targetPhrase : List W)
    (targetSegment : WordsRange)
    (hstart : lm.order ≤ 1 ∨ targetSegment.startPos ≤ targetWords.length)
    (p : WordPtr)
    (hp : p ∈ contextPtrs lm.order targetSegment targetPhrase.length targetWords.length) :
    deref lm targetWords targetPhrase p = some (derefD lm targetWords targetPhrase p) := by
  simp only [contextPtrs, List.mem_append] at hp
  rcases hp with (hp | hp) | hp
  · rcases mem_prePtrs _ _ _ hp with rfl | ⟨pos, rfl, hpos, _, hord⟩
    · simp [derefD, deref]
    · have : pos < targetWords.length := by omega
      simp [derefD, deref, List.getElem?_eq_getElem this]
  · obtain ⟨pos, rfl, hpos⟩ := mem_phrasePtrs _ _ hp
    simp [derefD, deref, List.getElem?_eq_getElem hpos]
  · rcases mem_postPtrs _ _ _ _ hp with rfl | ⟨pos, rfl, hpos, _, _⟩
    · simp [derefD, deref]
    · simp [derefD, deref, List.getElem?_eq_getElem hpos]

theorem contextPtrs_length (order : Nat) (seg : WordsRange) (len size : Nat) :
    (contextPtrs order seg len size).length = len + 2 * (order - 1) := by
  simp only [contextPtrs, List.length_append, prePtrs_length, phrasePtrs_length, postPtrs_length]
  omega

theorem fillContext_eq_contextPtrs {W : Type} (order : Nat) (targetWords targetPhrase : List W)
    (targetSegment : WordsRange)
    (hstart : order ≤ 1 ∨ targetSegment.startPos ≤ targetWords.length) :
    fillContext order targetWords targetPhrase targetSegment
      = some { lmcontext := contextPtrs order targetSegment targetPhrase.length targetWords.length,
               contextPos := targetPhrase.length + 2 * (order - 1),
               eoscount := eosCount order targetSegment.endPos targetWords.length } :=
  fillContext_eq order targetWords targetPhrase targetSegment hstart

theorem lmContextWords_eq {W P : Type} (lm : LanguageModel W P) (targetWords targetPhrase : List W)
    (targetSegment : WordsRange)
    (hstart : lm.order ≤ 1 ∨ targetSegment.startPos ≤ targetWords.length) :
    lmContextWords lm targetWords targetPhrase targetSegment
      = some ((contextPtrs lm.order targetSegment targetPhrase.length targetWords.length).map
          (derefD lm targetWords targetPhrase)) := by
  unfold lmContextWords
  rw [fillContext_eq_contextPtrs lm.order targetWords targetPhrase targetSegment hstart]
  exact mapM_eq_some_map _ _ _
    (fun p hp => deref_contextPtrs lm targetWords targetPhrase targetSegment hstart p hp)

theorem lmNgramPtrs_eq {W P : Type} (lm : LanguageModel W P) (targetWords targetPhrase : List W)
    (targetSegment : WordsRange)
    (hstart : lm.order ≤ 1 ∨ targetSegment.startPos ≤ targetWords.length) :
    lmNgramPtrs lm targetWords targetPhrase targetSegment
      = some ((List.range (targetPhrase.length + (lm.order - 1))).map
          (window (contextPtrs lm.order targetSegment targetPhrase.length targetWords.length)
            lm.order
            (maxend (targetPhrase.length + 2 * (lm.order - 1))
              (eosCount lm.order targetSegment.endPos targetWords.length)))) := by
  unfold lmNgramPtrs
  rw [fillContext_eq_contextPtrs lm.order targetWords targetPhrase targetSegment hstart]
  simp only [Option.some_bind, scoredNgramPtrs_eq, contextPtrs_length]
  have : targetPhrase.length + 2 * (lm.order - 1) - (lm.order - 1)
      = targetPhrase.length + (lm.order - 1) := by omega
  rw [this]

theorem window_sublist {α : Type} (buf : List α) (order mx k : Nat) :
    (window buf order mx k).Sublist buf :=
  (List.take_sublist _ _).trans (List.drop_sublist _ _)

theorem window_map {α β : Type} (f : α → β) (buf : List α) (order mx k : Nat) :
    (window buf order mx k).map f = window (buf.map f) order mx k := by
  simp [window, List.map_take, List.map_drop]

theorem lmNgrams_eq {W P : Type} (lm : LanguageModel W P) (targetWords targetPhrase : List W)
    (targetSegment : WordsRange)
    (hstart : lm.order ≤ 1 ∨ targetSegment.startPos ≤ targetWords.length) :
    lmNgrams lm targetWords targetPhrase targetSegment
      = some ((List.range (targetPhrase.length + (lm.order - 1))).map
          (window ((contextPtrs lm.order targetSegment targetPhrase.length targetWords.length).map
              (derefD lm targetWords targetPhrase))
            lm.order
            (maxend (targetPhrase.length + 2 * (lm.order - 1))
              (eosCount lm.order targetSegment.endPos targetWords.length)))) := by
  unfold lmNgrams
  rw [lmNgramPtrs_eq lm targetWords targetPhrase targetSegment hstart]
  simp only [Option.some_bind]
  rw [mapM_eq_some_map _ (List.map (derefD lm targetWords targetPhrase))]
  · simp [List.map_map, Function.comp_def, window_map]
  · intro g hg
    simp only [List.mem_map, List.mem_range] at hg
    obtain ⟨k, _, rfl⟩ := hg
    apply mapM_eq_some_map
    intro p hp
    exact deref_contextPtrs lm targetWords targetPhrase targetSegment hstart p
      ((window_sublist _ _ _ _).subset hp)

theorem map_derefD_phrasePtrs {W P : Type} (lm : LanguageModel W P)
    (targetWords targetPhrase : List W) :
    (phrasePtrs targetPhrase.length).map (derefD lm targetWords targetPhrase) = targetPhrase := by
  apply List.ext_getElem?
  intro i
  by_cases hi : i < targetPhrase.length
  · simp [phrasePtrs, List.getElem?_map, List.getElem?_range hi, derefD, deref,
      List.getElem?_eq_getElem hi]
  · have h1 : targetPhrase.length ≤ i := by omega
    simp [phrasePtrs, List.getElem?_eq_none, h1]

theorem getElem?_pre {W P : Type} (lm : LanguageModel W P) (targetWords targetPhrase : List W)
    (startPos : Nat) (hstart : lm.order ≤ 1 ∨ startPos ≤ targetWords.length) (k : Nat)
    (hk : k < lm.order - 1) :
    ((prePtrs lm.order startPos).map (derefD lm targetWords targetPhrase))[k]?
      = if lm.order - 1 ≤ startPos + k then targetWords[startPos + k - (lm.order - 1)]?
        else some lm.sentenceStart := by
  by_cases h : startPos + k < lm.order - 1
  · have h' : ¬ lm.order - 1 ≤ startPos + k := by omega
    simp [prePtrs, List.getElem?_map, List.getElem?_range hk, h, h', derefD, deref]
  · have h' : lm.order - 1 ≤ startPos + k := by omega
    have hlt : startPos + k - (lm.order - 1) < targetWords.length := by omega
    simp [prePtrs, List.getElem?_map, List.getElem?_range hk, h, h', derefD, deref,
      List.getElem?_eq_getElem hlt]

theorem getElem?_post {W P : Type} (lm : LanguageModel W P) (targetWords targetPhrase : List W)
    (endPos : Nat) (i : Nat) (hi : i < lm.order - 1) :
    ((postPtrs lm.order endPos targetWords.length).map (derefD lm targetWords targetPhrase))[i]?
      = if endPos + 1 + i < targetWords.length then targetWords[endPos + 1 + i]?
        else some lm.sentenceEnd := by
  by_cases h : targetWords.length ≤ i + endPos + 1
  · have h' : ¬ endPos + 1 + i < targetWords.length := by omega
    simp [postPtrs, List.getElem?_map, List.getElem?_range hi, h, h', derefD, deref]
  · have h' : endPos + 1 + i < targetWords.length := by omega
    have he : i + endPos + 1 = endPos + 1 + i := by omega
    have h2 : ¬ targetWords.length ≤ endPos + 1 + i := by omega
    simp [postPtrs, List.getElem?_map, List.getElem?_range hi, h2, h', derefD, deref, he,
      List.getElem?_eq_getElem h']

/-! ## Undefined fills -/

theorem forRange_none {σ : Type} (body : Nat → σ → Option σ) (i : Nat)
    (hbody : ∀ s, body i s = none) :
    ∀ (n i0 : Nat) (s : σ), i0 ≤ i → i < i0 + n → forRange body n i0 s = none := by
  intro n
  induction n with
  | zero => intro i0 s h1 h2; omega
  | succ n ih =>
    intro i0 s h1 h2
    simp only [forRange]
    by_cases hi : i = i0
    · subst hi
      rw [hbody s]
      rfl
    · cases hb : body i0 s with
      | none => rfl
      | some t => exact ih (i0 + 1) t (by omega) (by omega)

theorem fillContext_none {W : Type} (order : Nat) (targetWords targetPhrase : List W)
    (targetSegment : WordsRange)
    (hbad : ¬ (order ≤ 1 ∨ targetSegment.startPos ≤ targetWords.length)) :
    fillContext order targetWords targetPhrase targetSegment = none := by
  have hstep : ∀ s : FillState,
      preContextStep targetWords ((targetSegment.startPos : Int) - ((order - 1 : Nat) : Int))
        (order - 2) s = none := by
    intro s
    unfold preContextStep
    have h0 : ¬ (targetSegment.startPos : Int) - ((order - 1 : Nat) : Int)
        + ((order - 2 : Nat) : Int) < 0 := by omega
    have h1 : ¬ (((order - 2 : Nat) : Int)
        + ((targetSegment.startPos : Int) - ((order - 1 : Nat) : Int))).toNat
          < targetWords.length := by omega
    simp [h0, targetPtr, h1]
  have hpre := forRange_none _ (order - 2) hstep (order - 1) 0
    { lmcontext := List.replicate (targetPhrase.length + 2 * (order - 1)) WordPtr.null,
      contextPos := 0, eoscount := 0 } (by omega) (by omega)
  simp only [fillContext, hpre, Option.none_bind]

/-! ## At most one sentence end in a window -/

theorem contextPtrs_split (order : Nat) (seg : WordsRange) (len size : Nat) :
    contextPtrs order seg len size
      = (prePtrs order seg.startPos ++ phrasePtrs len
          ++ (List.range (min (order - 1) (size - (seg.endPos + 1)))).map
              (fun i => WordPtr.target (i + seg.endPos + 1)))
        ++ List.replicate (eosCount order seg.endPos size) WordPtr.sentenceEnd := by
  simp only [contextPtrs, postPtrs_split, List.append_assoc]

theorem count_sentenceEnd_body (order : Nat) (seg : WordsRange) (len size : Nat) :
    (prePtrs order seg.startPos ++ phrasePtrs len
      ++ (List.range (min (order - 1) (size - (seg.endPos + 1)))).map
          (fun i => WordPtr.target (i + seg.endPos + 1))).count WordPtr.sentenceEnd = 0 := by
  rw [List.count_eq_zero]
  intro hmem
  simp only [List.mem_append, List.mem_map] at hmem
  rcases hmem with (h | h) | ⟨i, _, h⟩
  · rcases mem_prePtrs _ _ _ h with h | ⟨pos, h, _⟩ <;> cases h
  · obtain ⟨pos, h, _⟩ := mem_phrasePtrs _ _ h
    cases h
  · cases h

theorem eosCount_le (order e n : Nat) : eosCount order e n ≤ order - 1 := by
  unfold eosCount
  omega

theorem count_take_maxend (order : Nat) (seg : WordsRange) (len size : Nat)
    (hsize : len + 2 * (order - 1) < 2 ^ 64) :
    ((contextPtrs order seg len size).take
      (maxend (len + 2 * (order - 1)) (eosCount order seg.endPos size))).count
        WordPtr.sentenceEnd ≤ 1 := by
  have hec := eosCount_le order seg.endPos size
  by_cases h0 : eosCount order seg.endPos size = 0
  · have hle := (List.take_sublist
      (maxend (len + 2 * (order - 1)) (eosCount order seg.endPos size))
      (contextPtrs order seg len size)).count_le WordPtr.sentenceEnd
    have hc : (contextPtrs order seg len size).count WordPtr.sentenceEnd = 0 := by
      rw [contextPtrs_split, List.count_append, count_sentenceEnd_body, h0]
      rfl
    omega
  · rw [maxend_of_pos _ _ hsize (by omega) (by omega), contextPtrs_split]
    have hlen : (prePtrs order seg.startPos ++ phrasePtrs len
        ++ (List.range (min (order - 1) (size - (seg.endPos + 1)))).map
            (fun i => WordPtr.target (i + seg.endPos + 1))).length
        = len + 2 * (order - 1) - eosCount order seg.endPos size := by
      simp only [List.length_append, List.length_map, List.length_range, prePtrs_length,
        phrasePtrs_length, eosCount]
      omega
    rw [List.take_append_eq_append_take, List.count_append, hlen]
    have h1 := (List.take_sublist
      (len + 2 * (order - 1) - (eosCount order seg.endPos size - 1))
      (prePtrs order seg.startPos ++ phrasePtrs len
        ++ (List.range (min (order - 1) (size - (seg.endPos + 1)))).map
            (fun i => WordPtr.target (i + seg.endPos + 1)))).count_le WordPtr.sentenceEnd
    rw [count_sentenceEnd_body] at h1
    have h2 : len + 2 * (order - 1) - (eosCount order seg.endPos size - 1)
        - (len + 2 * (order - 1) - eosCount order seg.endPos size) = 1 := by omega
    rw [h2, List.take_replicate, List.count_replicate_self]
    omega

theorem window_sublist_take {α : Type} (buf : List α) (order mx k : Nat) :
    (window buf order mx k).Sublist (buf.take mx) := by
  unfold window
  have h1 : ((buf.drop k).take (min (k + order) mx - k)).Sublist ((buf.drop k).take (mx - k)) :=
    List.take_sublist_take_left _ (by omega)
  have h2 : (buf.drop k).take (mx - k) = (buf.take mx).drop k := by
    rw [List.drop_take]
  rw [h2] at h1
  exact h1.trans (List.drop_sublist _ _)

/-! ## The loop over the language models -/

theorem lmScore_isSome {W P : Type} (lm : LanguageModel W P) (targetWords targetPhrase : List W)
    (targetSegment : WordsRange)
    (hstart : lm.order ≤ 1 ∨ targetSegment.startPos ≤ targetWords.length) :
    lmScore lm targetWords targetPhrase targetSegment
      = some (lmScoreD lm targetWords targetPhrase targetSegment) := by
  unfold lmScoreD lmScore
  rw [lmNgrams_eq lm targetWords targetPhrase targetSegment hstart]
  rfl

theorem lmScore_none {W P : Type} (lm : LanguageModel W P) (targetWords targetPhrase : List W)
    (targetSegment : WordsRange)
    (hbad : ¬ (lm.order ≤ 1 ∨ targetSegment.startPos ≤ targetWords.length)) :
    lmScore lm targetWords targetPhrase targetSegment = none := by
  simp [lmScore, lmNgrams, lmNgramPtrs, fillContext_none lm.order _ _ _ hbad]

theorem foldlM_lm_some {W P : Type} [DecidableEq P] (lms : List (LanguageModel W P))
    (targetWords targetPhrase : List W) (targetSegment : WordsRange)
    (hall : ∀ lm ∈ lms, lm.order ≤ 1 ∨ targetSegment.startPos ≤ targetWords.length)
    (m_scores : ScoreComponentCollection P) :
    lms.foldlM
      (fun scores lm =>
        (lmScore lm targetWords targetPhrase targetSegment).map fun lmscore =>
          ScoreComponentCollection.Assign scores lm.producer lmscore)
      m_scores
      = some (assignLMScores lms targetWords targetPhrase targetSegment m_scores) := by
  induction lms generalizing m_scores with
  | nil => rfl
  | cons lm lms ih =>
    rw [List.foldlM_cons, lmScore_isSome lm _ _ _ (hall lm (by simp))]
    exact ih (fun l hl => hall l (by simp [hl])) _

theorem foldlM_lm_none {W P : Type} [DecidableEq P] (lms : List (LanguageModel W P))
    (targetWords targetPhrase : List W) (targetSegment : WordsRange)
    (hbad : ¬ ∀ lm ∈ lms, lm.order ≤ 1 ∨ targetSegment.startPos ≤ targetWords.length)
    (m_scores : ScoreComponentCollection P) :
    lms.foldlM
      (fun scores lm =>
        (lmScore lm targetWords targetPhrase targetSegment).map fun lmscore =>
          ScoreComponentCollection.Assign scores lm.producer lmscore)
      m_scores
      = none := by
  induction lms generalizing m_scores with
  | nil => simp at hbad
  | cons lm lms ih =>
    rw [List.foldlM_cons]
    by_cases hlm : lm.order ≤ 1 ∨ targetSegment.startPos ≤ targetWords.length
    · rw [lmScore_isSome lm _ _ _ hlm]
      apply ih
      intro hrest
      apply hbad
      intro l hl
      rcases List.mem_cons.mp hl with rfl | hl
      · exact hlm
      · exact hrest l hl
    · rw [lmScore_none lm _ _ _ hlm]
      rfl

theorem addLanguageModelScore_eq {W P : Type} [DecidableEq P] (sd : StaticData W P)
    (m_scores : ScoreComponentCollection P) (targetWords targetPhrase : List W)
    (targetSegment : WordsRange)
    (hall : ∀ lm ∈ sd.allLM, lm.order ≤ 1 ∨ targetSegment.startPos ≤ targetWords.length) :
    addLanguageModelScore sd m_scores targetWords targetPhrase targetSegment
      = some (assignLMScores sd.allLM targetWords targetPhrase targetSegment m_scores) :=
  foldlM_lm_some sd.allLM targetWords targetPhrase targetSegment hall m_scores

theorem addLanguageModelScore_defined {W P : Type} [DecidableEq P] (sd : StaticData W P)
    (m_scores res : ScoreComponentCollection P) (targetWords targetPhrase : List W)
    (targetSegment : WordsRange)
    (h : addLanguageModelScore sd m_scores targetWords targetPhrase targetSegment = some res) :
    ∀ lm ∈ sd.allLM, lm.order ≤ 1 ∨ targetSegment.startPos ≤ targetWords.length := by
  by_contra hbad
  have := foldlM_lm_none sd.allLM targetWords targetPhrase targetSegment hbad m_scores
  unfold addLanguageModelScore at h
  rw [this] at h
  cases h

theorem assignLMScores_frame {W P : Type} [DecidableEq P] (lms : List (LanguageModel W P))
    (targetWords targetPhrase : List W) (targetSegment : WordsRange)
    (m_scores : ScoreComponentCollection P) (p : P) (hp : ∀ lm ∈ lms, lm.producer ≠ p) :
    assignLMScores lms targetWords targetPhrase targetSegment m_scores p = m_scores p := by
  induction lms generalizing m_scores with
  | nil => rfl
  | cons lm lms ih =>
    have h1 := ih (m_scores.Assign lm.producer
      (lmScoreD lm targetWords targetPhrase targetSegment)) (fun l hl => hp l (by simp [hl]))
    have h2 : p ≠ lm.producer := fun h => hp lm (by simp) h.symm
    simp only [assignLMScores, List.foldl_cons] at h1 ⊢
    rw [h1]
    funext k
    simp [ScoreComponentCollection.Assign, h2]

theorem assignLMScores_indep {W P : Type} [DecidableEq P] (lms : List (LanguageModel W P))
    (targetWords targetPhrase : List W) (targetSegment : WordsRange)
    (s1 s2 : ScoreComponentCollection P) (p : P) (hp : ∃ lm ∈ lms, lm.producer = p) :
    assignLMScores lms targetWords targetPhrase targetSegment s1 p
      = assignLMScores lms targetWords targetPhrase targetSegment s2 p := by
  induction lms generalizing s1 s2 with
  | nil => simp at hp
  | cons lm lms ih =>
    by_cases hrest : ∃ l ∈ lms, l.producer = p
    · exact ih _ _ hrest
    · have hne : ∀ l ∈ lms, l.producer ≠ p := fun l hl h => hrest ⟨l, hl, h⟩
      have hlm : lm.producer = p := by
        obtain ⟨l, hl, hlp⟩ := hp
        rcases List.mem_cons.mp hl with rfl | hl
        · exact hlp
        · exact absurd hlp (hne l hl)
      have e1 := assignLMScores_frame lms targetWords targetPhrase targetSegment
        (s1.Assign lm.producer (lmScoreD lm targetWords targetPhrase targetSegment)) p hne
      have e2 := assignLMScores_frame lms targetWords targetPhrase targetSegment
        (s2.Assign lm.producer (lmScoreD lm targetWords targetPhrase targetSegment)) p hne
      simp only [assignLMScores, List.foldl_cons] at e1 e2 ⊢
      rw [e1, e2]
      funext k
      simp [ScoreComponentCollection.Assign, hlm]

theorem assignLMScores_idem {W P : Type} [DecidableEq P] (lms : List (LanguageModel W P))
    (targetWords targetPhrase : List W) (targetSegment : WordsRange)
    (s : ScoreComponentCollection P) :
    assignLMScores lms targetWords targetPhrase targetSegment
        (assignLMScores lms targetWords targetPhrase targetSegment s)
      = assignLMScores lms targetWords targetPhrase targetSegment s := by
  funext p
  by_cases hp : ∃ lm ∈ lms, lm.producer = p
  · exact assignLMScores_indep lms _ _ _ _ _ p hp
  · exact assignLMScores_frame lms _ _ _ _ p (fun l hl h => hp ⟨l, hl, h⟩)

theorem assignLMScores_value {W P : Type} [DecidableEq P] (lms : List (LanguageModel W P))
    (targetWords targetPhrase : List W) (targetSegment : WordsRange)
    (s : ScoreComponentCollection P) (hnd : (lms.map fun l => l.producer).Nodup)
    (lm : LanguageModel W P) (hlm : lm ∈ lms) (k : Nat) :
    assignLMScores lms targetWords targetPhrase targetSegment s lm.producer k
      = if k = 0 then lmScoreD lm targetWords targetPhrase targetSegment else 0 := by
  induction lms generalizing s with
  | nil => simp at hlm
  | cons a lms ih =>
    simp only [List.map_cons, List.nodup_cons, List.mem_map, not_exists, not_and] at hnd
    rcases List.mem_cons.mp hlm with rfl | hmem
    · have hfr := assignLMScores_frame lms targetWords targetPhrase targetSegment
        (s.Assign lm.producer (lmScoreD lm targetWords targetPhrase targetSegment)) lm.producer
        (fun l hl => hnd.1 l hl)
      simp only [assignLMScores, List.foldl_cons] at hfr ⊢
      rw [hfr]
      simp [ScoreComponentCollection.Assign]
    · have := ih (s.Assign a.producer (lmScoreD a targetWords targetPhrase targetSegment))
        hnd.2 hmem
      simpa only [assignLMScores, List.foldl_cons] using this

/-! ## The constructor -/

theorem TranslationUpdateDelta.new_eq {W P : Type} [DecidableEq P] (sd : StaticData W P)
    (targetWords : List W) (option : TranslationOption W P) (targetSegment : WordsRange)
    (hall : ∀ lm ∈ sd.allLM, lm.order ≤ 1 ∨ targetSegment.startPos ≤ targetWords.length) :
    TranslationUpdateDelta.new sd targetWords option targetSegment
      = some
          { m_option := option
            m_scores := assignLMScores sd.allLM targetWords option.targetPhrase targetSegment
              ((ScoreComponentCollection.zero.PlusEquals option.scoreBreakdown).Assign
                sd.wordPenaltyProducer (wordPenalty targetSegment))
            m_score := (assignLMScores sd.allLM targetWords option.targetPhrase targetSegment
              ((ScoreComponentCollection.zero.PlusEquals option.scoreBreakdown).Assign
                sd.wordPenaltyProducer (wordPenalty targetSegment))).InnerProduct
                  sd.scoreProducers sd.allWeights } := by
  unfold TranslationUpdateDelta.new
  simp only [addLanguageModelScore_eq sd _ targetWords option.targetPhrase targetSegment hall,
    Option.map_some']

theorem TranslationUpdateDelta.new_option {W P : Type} [DecidableEq P] (sd : StaticData W P)
    (targetWords : List W) (option : TranslationOption W P) (targetSegment : WordsRange)
    (d : TranslationUpdateDelta W P)
    (hd : TranslationUpdateDelta.new sd targetWords option targetSegment = some d) :
    d.m_option = option := by
  unfold TranslationUpdateDelta.new at hd
  simp only [Option.map_eq_some'] at hd
  obtain ⟨_, _, rfl⟩ := hd
  rfl

theorem postPtrs_all_end (order e n : Nat) (h : n ≤ e) :
    postPtrs order e n = List.replicate (order - 1) WordPtr.sentenceEnd := by
  rw [postPtrs_split]
  have h1 : min (order - 1) (n - (e + 1)) = 0 := by omega
  have h2 : eosCount order e n = order - 1 := by
    unfold eosCount
    omega
  rw [h1, h2]
  rfl

/-! ## Dependence on the hypothesis -/

theorem derefD_congr {W P : Type} (lm : LanguageModel W P) (h1 h2 phrase : List W)
    (seg : WordsRange) (size : Nat)
    (hpre : ∀ pos, pos < seg.startPos → seg.startPos ≤ pos + (lm.order - 1) →
      h1[pos]? = h2[pos]?)
    (hpost : ∀ pos, seg.endPos < pos → pos ≤ seg.endPos + (lm.order - 1) →
      h1[pos]? = h2[pos]?)
    (p : WordPtr) (hp : p ∈ contextPtrs lm.order seg phrase.length size) :
    derefD lm h1 phrase p = derefD lm h2 phrase p := by
  simp only [contextPtrs, List.mem_append] at hp
  rcases hp with (hp | hp) | hp
  · rcases mem_prePtrs _ _ _ hp with rfl | ⟨pos, rfl, hlt, hge, _⟩
    · rfl
    · simp only [derefD, deref, hpre pos hlt hge]
  · obtain ⟨pos, rfl, _⟩ := mem_phrasePtrs _ _ hp
    rfl
  · rcases mem_postPtrs _ _ _ _ hp with rfl | ⟨pos, rfl, _, hgt, hle⟩
    · rfl
    · simp only [derefD, deref, hpost pos hgt hle]

theorem lmScore_congr {W P : Type} (lm : LanguageModel W P) (h1 h2 phrase : List W)
    (seg : WordsRange) (hlen : h1.length = h2.length)
    (hpre : ∀ pos, pos < seg.startPos → seg.startPos ≤ pos + (lm.order - 1) →
      h1[pos]? = h2[pos]?)
    (hpost : ∀ pos, seg.endPos < pos → pos ≤ seg.endPos + (lm.order - 1) →
      h1[pos]? = h2[pos]?) :
    lmScore lm h1 phrase seg = lmScore lm h2 phrase seg := by
  by_cases hdef : lm.order ≤ 1 ∨ seg.startPos ≤ h1.length
  · have hdef2 : lm.order ≤ 1 ∨ seg.startPos ≤ h2.length := by omega
    unfold lmScore
    rw [lmNgrams_eq lm h1 phrase seg hdef, lmNgrams_eq lm h2 phrase seg hdef2, hlen,
      List.map_congr_left
        (fun p hp => derefD_congr lm h1 h2 phrase seg h2.length hpre hpost p hp)]
  · have hdef2 : ¬ (lm.order ≤ 1 ∨ seg.startPos ≤ h2.length) := by omega
    rw [lmScore_none lm h1 phrase seg hdef, lmScore_none lm h2 phrase seg hdef2]

/-! ## The weighted total -/

theorem map_sub_eq_zipWith (f g : Nat → Int) (l : List Nat) :
    l.map (fun k => f k - g k) = List.zipWith (fun x y => x - y) (l.map f) (l.map g) := by
  induction l with
  | nil => rfl
  | cons a l ih => simp only [List.map_cons, List.zipWith_cons_cons, ih]

theorem flatten_length {P : Type} (registry : List (P × Nat)) (v b : ScoreComponentCollection P) :
    (ScoreComponentCollection.flatten registry v).length
      = (ScoreComponentCollection.flatten registry b).length := by
  induction registry with
  | nil => rfl
  | cons e registry ih =>
    simp only [ScoreComponentCollection.flatten, List.flatMap_cons, List.length_append,
      List.length_map] at ih ⊢
    rw [ih]

theorem flatten_MinusEquals {P : Type} (registry : List (P × Nat))
    (v b : ScoreComponentCollection P) :
    ScoreComponentCollection.flatten registry (v.MinusEquals b)
      = List.zipWith (fun x y => x - y) (ScoreComponentCollection.flatten registry v)
          (ScoreComponentCollection.flatten registry b) := by
  induction registry with
  | nil => rfl
  | cons e registry ih =>
    simp only [ScoreComponentCollection.flatten, List.flatMap_cons] at ih ⊢
    rw [List.zipWith_append _ _ _ _ _ (by simp), ← ih]
    congr 1
    exact map_sub_eq_zipWith (v e.1) (b e.1) (List.range e.2)

theorem sum_zipWith_sub (xs ys ws : List Int) (h : xs.length = ys.length) :
    (List.zipWith (fun x w => x * w) (List.zipWith (fun x y => x - y) xs ys) ws).sum
      = (List.zipWith (fun x w => x * w) xs ws).sum
        - (List.zipWith (fun x w => x * w) ys ws).sum := by
  induction xs generalizing ys ws with
  | nil =>
    cases ys with
    | nil => simp
    | cons y ys => simp at h
  | cons x xs ih =>
    cases ys with
    | nil => simp at h
    | cons y ys =>
      cases ws with
      | nil => simp
      | cons w ws =>
        have hlen : xs.length = ys.length := by simpa using h
        simp only [List.zipWith_cons_cons, List.sum_cons, ih ys ws hlen, Int.sub_mul]
        omega

theorem InnerProduct_MinusEquals {P : Type} (registry : List (P × Nat))
    (v b : ScoreComponentCollection P) (weights : List Int) :
    (v.MinusEquals b).InnerProduct registry weights
      = v.InnerProduct registry weights - b.InnerProduct registry weights := by
  unfold ScoreComponentCollection.InnerProduct
  rw [flatten_MinusEquals, sum_zipWith_sub _ _ _ (flatten_length registry v b)]

/-! ## Number and length of the n-grams -/

theorem maxend_eq (size eoscount : Nat) (hsize : size < 2 ^ 64 - 1) (hec : eoscount ≤ size) :
    maxend size eoscount = if eoscount ≤ 1 then size else size - (eoscount - 1) := by
  by_cases h0 : eoscount = 0
  · subst h0
    simp [maxend_zero _ hsize]
  · rw [maxend_of_pos _ _ (by omega) (by omega) hec]
    split <;> omega

theorem window_length {α : Type} (buf : List α) (order mx k : Nat) :
    (window buf order mx k).length = min (min (k + order) mx - k) (buf.length - k) := by
  simp [window, List.length_take, List.length_drop]

theorem window_getLast? {α : Type} (buf : List α) (order mx k : Nat)
    (h1 : k < min (k + order) mx) (h2 : mx ≤ buf.length) :
    (window buf order mx k).getLast? = buf[min (k + order) mx - 1]? := by
  rw [List.getLast?_eq_getElem?, window_length]
  have hlen : min (min (k + order) mx - k) (buf.length - k) = min (k + order) mx - k := by omega
  rw [hlen]
  unfold window
  rw [List.getElem?_take_of_lt (by omega), List.getElem?_drop]
  congr 1
  omega

theorem countP_range_ge (t : Nat) (m : Nat) :
    (List.range m).countP (fun k => decide (t ≤ k)) = m - t := by
  induction m with
  | zero => simp
  | succ m ih =>
    rw [List.range_succ, List.countP_append, ih]
    by_cases h : t ≤ m
    · simp [List.countP_cons, h]
      omega
    · simp [List.countP_cons, h]
      omega

theorem window_ends_at_sentenceEnd (order : Nat) (seg : WordsRange) (len size k : Nat)
    (hN : 1 ≤ order) (hsize : len + 2 * (order - 1) < 2 ^ 64)
    (hec : 1 ≤ eosCount order seg.endPos size) (hk : k < len + (order - 1)) :
    (window (contextPtrs order seg len size) order
        (maxend (len + 2 * (order - 1)) (eosCount order seg.endPos size)) k).getLast?
        = some WordPtr.sentenceEnd
      ↔ len + (order - 1) - eosCount order seg.endPos size ≤ k := by
  have hle := eosCount_le order seg.endPos size
  have hmx := maxend_of_pos (len + 2 * (order - 1)) (eosCount order seg.endPos size) hsize hec
    (by omega)
  have hbody : (prePtrs order seg.startPos ++ phrasePtrs len
      ++ (List.range (min (order - 1) (size - (seg.endPos + 1)))).map
          (fun i => WordPtr.target (i + seg.endPos + 1))).length
      = len + 2 * (order - 1) - eosCount order seg.endPos size := by
    simp only [List.length_append, List.length_map, List.length_range, prePtrs_length,
      phrasePtrs_length, eosCount]
    omega
  rw [window_getLast? _ _ _ _ (by omega) (by rw [contextPtrs_length]; omega), hmx,
    contextPtrs_split]
  by_cases hlast : len + (order - 1) - eosCount order seg.endPos size ≤ k
  · have hidx : min (k + order) (len + 2 * (order - 1) - (eosCount order seg.endPos size - 1)) - 1
        = (prePtrs order seg.startPos ++ phrasePtrs len
            ++ (List.range (min (order - 1) (size - (seg.endPos + 1)))).map
                (fun i => WordPtr.target (i + seg.endPos + 1))).length := by
      rw [hbody]
      omega
    rw [hidx, List.getElem?_append_right (Nat.le_refl _)]
    have hpos : 0 < eosCount order seg.endPos size := hec
    simp [hlast, List.getElem?_replicate, hpos]
  · have hidx : min (k + order) (len + 2 * (order - 1) - (eosCount order seg.endPos size - 1)) - 1
        < (prePtrs order seg.startPos ++ phrasePtrs len
            ++ (List.range (min (order - 1) (size - (seg.endPos + 1)))).map
                (fun i => WordPtr.target (i + seg.endPos + 1))).length := by
      rw [hbody]
      omega
    rw [List.getElem?_append_left hidx]
    simp only [hlast, iff_false]
    intro hget
    have hmem := List.getElem?_mem hget
    have hcount := count_sentenceEnd_body order seg len size
    rw [List.count_eq_zero] at hcount
    exact hcount hmem

/-! ## The language-model score as a sum -/

theorem foldl_add_eq_sum {α : Type} (f : α → Int) (l : List α) (a : Int) :
    l.foldl (fun acc g => acc + f g) a = a + (l.map f).sum := by
  induction l generalizing a with
  | nil => simp
  | cons x l ih =>
    simp only [List.foldl_cons, List.map_cons, List.sum_cons, ih]
    omega

theorem lmScore_eq_sum {W P : Type} (lm : LanguageModel W P) (targetWords targetPhrase : List W)
    (targetSegment : WordsRange)
    (hstart : lm.order ≤ 1 ∨ targetSegment.startPos ≤ targetWords.length) :
    lmScore lm targetWords targetPhrase targetSegment
      = some (((List.range (targetPhrase.length + (lm.order - 1))).map fun j =>
          lm.GetValue
            (window ((contextPtrs lm.order targetSegment targetPhrase.length
                targetWords.length).map (derefD lm targetWords targetPhrase))
              lm.order
              (maxend (targetPhrase.length + 2 * (lm.order - 1))
                (eosCount lm.order targetSegment.endPos targetWords.length)) j)).sum) := by
  unfold lmScore
  rw [lmNgrams_eq lm targetWords targetPhrase targetSegment hstart]
  simp only [Option.map_some', foldl_add_eq_sum, List.map_map, Int.zero_add]
  rfl

/-! ## The buffer after a part of a fill loop -/

theorem take_map_range {α : Type} (f : Nat → α) (n t : Nat) (h : t ≤ n) :
    ((List.range n).map f).take t = (List.range t).map f := by
  rw [← List.map_take, List.take_range, Nat.min_eq_left h]

theorem forRange_fill_prefix (body : Nat → FillState → Option FillState) (f : Nat → WordPtr)
    (g : Nat → Nat) (hi : Nat)
    (hbody : ∀ i s, i < hi → s.contextPos < s.lmcontext.length →
      body i s = some { lmcontext := s.lmcontext.set s.contextPos (f i),
                        contextPos := s.contextPos + 1,
                        eoscount := s.eoscount + g i })
    (s : FillState) (done : List WordPtr) (m : Nat)
    (hs : s.lmcontext = done ++ List.replicate m WordPtr.null)
    (hp : s.contextPos = done.length) (t : Nat) (ht : t ≤ m) (hthi : t ≤ hi) :
    ∃ s', forRange body t 0 s = some s' ∧ s'.contextPos = done.length + t ∧
      s'.lmcontext = done ++ (List.range t).map f ++ List.replicate (m - t) WordPtr.null := by
  refine ⟨_, forRange_fill_state body f g hi hbody t 0 s done
    (List.replicate m WordPtr.null) hs hp (by simpa using ht) (by omega), rfl, ?_⟩
  simp [List.range_eq_range']

theorem contextPtrs_mem (order : Nat) (seg : WordsRange) (len size : Nat)
    (hstart : seg.startPos ≤ size) (p : WordPtr) (hp : p ∈ contextPtrs order seg len size) :
    p ≠ WordPtr.null ∧ (∀ pos, p = WordPtr.target pos → pos < size) ∧
      (∀ pos, p = WordPtr.phrase pos → pos < len) := by
  simp only [contextPtrs, List.mem_append] at hp
  rcases hp with (hp | hp) | hp
  · rcases mem_prePtrs _ _ _ hp with rfl | ⟨pos, rfl, hlt, _, _⟩
    · exact ⟨by simp, by simp, by simp⟩
    · refine ⟨by simp, ?_, by simp⟩
      intro q hq
      cases hq
      omega
  · obtain ⟨pos, rfl, hlt⟩ := mem_phrasePtrs _ _ hp
    refine ⟨by simp, by simp, ?_⟩
    intro q hq
    cases hq
    exact hlt
  · rcases mem_postPtrs _ _ _ _ hp with rfl | ⟨pos, rfl, hlt, _, _⟩
    · exact ⟨by simp, by simp, by simp⟩
    · refine ⟨by simp, ?_, by simp⟩
      intro q hq
      cases hq
      exact hlt

theorem forRange_add {σ : Type} (body : Nat → σ → Option σ) (a b : Nat) :
    ∀ (i : Nat) (s : σ),
      forRange body (a + b) i s = (forRange body a i s).bind (forRange body b (i + a)) := by
  induction a with
  | zero => intro i s; simp [forRange]
  | succ a ih =>
    intro i s
    have hab : a + 1 + b = (a + b) + 1 := by omega
    rw [hab]
    simp only [forRange]
    cases body i s with
    | none => rfl
    | some t =>
      simp only [Option.some_bind]
      rw [ih (i + 1) t]
      have hi : i + 1 + a = i + (a + 1) := by omega
      rw [hi]

/-! ## The slots of an n-gram -/

theorem buildNgram_slots (lmcontext : List WordPtr) (order mx k : Nat) :
    (ngramSlots order mx k).mapM (fun j => lmcontext[j]?) = buildNgram lmcontext order mx k :=
  rfl

theorem ngramSlots_lt (order mx k j : Nat) (hj : j ∈ ngramSlots order mx k) : j < mx := by
  simp only [ngramSlots, List.mem_range'_1] at hj
  omega

theorem ngramSlots_getLast? (order mx k r : Nat) (hmx : mx = r + 1) (hk : k < mx)
    (hord : 1 ≤ order) :
    (ngramSlots order mx k).getLast? = some r ↔ mx ≤ k + order := by
  unfold ngramSlots
  rw [List.getLast?_range']
  have hn : ¬ min (k + order) mx - k = 0 := by omega
  simp only [hn, if_false, Option.some.injEq]
  omega

theorem contextPtrs_sentenceEnd_iff (order : Nat) (seg : WordsRange) (len size j : Nat)
    (hj : j < len + 2 * (order - 1)) :
    (contextPtrs order seg len size)[j]? = some WordPtr.sentenceEnd
      ↔ len + 2 * (order - 1) - eosCount order seg.endPos size ≤ j := by
  have hle := eosCount_le order seg.endPos size
  have hbody : (prePtrs order seg.startPos ++ phrasePtrs len
      ++ (List.range (min (order - 1) (size - (seg.endPos + 1)))).map
          (fun i => WordPtr.target (i + seg.endPos + 1))).length
      = len + 2 * (order - 1) - eosCount order seg.endPos size := by
    simp only [List.length_append, List.length_map, List.length_range, prePtrs_length,
      phrasePtrs_length, eosCount]
    omega
  rw [contextPtrs_split]
  by_cases hlt : j < len + 2 * (order - 1) - eosCount order seg.endPos size
  · rw [List.getElem?_append_left (by rw [hbody]; exact hlt)]
    constructor
    · intro hget
      have hmem := List.getElem?_mem hget
      have hcount := count_sentenceEnd_body order seg len size
      rw [List.count_eq_zero] at hcount
      exact absurd hmem hcount
    · intro hge
      omega
  · rw [List.getElem?_append_right (by rw [hbody]; omega), hbody]
    have hin : j - (len + 2 * (order - 1) - eosCount order seg.endPos size)
        < eosCount order seg.endPos size := by omega
    simp only [List.getElem?_replicate, hin, if_true, true_iff]
    omega

/-! ## The claims -/

/-- C2: for a language model of order `N ≥ 1`, a hypothesis `h`, a span
`[start,end]` with `start ≤ end < |h|` and a phrase `P` of length `L`, the
context buffer built by `addLanguageModelScore` has length `L + 2(N-1)` and is
`pre ++ P ++ post`, where `pre[k]` is `h[start-(N-1)+k]` if that position is
not negative and the sentence start otherwise, and `post[i]` is `h[end+1+i]` if
that position is below `|h|` and the sentence end otherwise. For
`h = [The, cat, sat]`, `N = 2`, span `[2,2]`, `P = [slept, quietly]` the buffer
is `[cat, slept, quietly, </s>]` and the scored bigrams are `(cat,slept)`,
`(slept,quietly)`, `(quietly,</s>)`. -/
theorem C2_context_buffer :
    (∀ (W P : Type) (lm : LanguageModel W P) (h : List W) (seg : WordsRange) (phrase : List W),
      1 ≤ lm.order → seg.startPos ≤ seg.endPos → seg.endPos < h.length →
      ∃ pre post : List W,
        lmContextWords lm h phrase seg = some (pre ++ phrase ++ post) ∧
        (pre ++ phrase ++ post).length = phrase.length + 2 * (lm.order - 1) ∧
        pre.length = lm.order - 1 ∧ post.length = lm.order - 1 ∧
        (∀ k, k < lm.order - 1 →
          pre[k]? = if lm.order - 1 ≤ seg.startPos + k
            then h[seg.startPos + k - (lm.order - 1)]? else some lm.sentenceStart) ∧
        (∀ i, i < lm.order - 1 →
          post[i]? = if seg.endPos + 1 + i < h.length
            then h[seg.endPos + 1 + i]? else some lm.sentenceEnd)) ∧
    (∀ score : List String → Int,
      lmContextWords (exampleLM 2 score) ["The", "cat", "sat"] ["slept", "quietly"] ⟨2, 2⟩
        = some ["cat", "slept", "quietly", "</s>"] ∧
      lmNgrams (exampleLM 2 score) ["The", "cat", "sat"] ["slept", "quietly"] ⟨2, 2⟩
        = some [["cat", "slept"], ["slept", "quietly"], ["quietly", "</s>"]]) := by
  refine ⟨?_, fun score => ⟨?_, ?_⟩⟩
  · intro W P lm h seg phrase _ hse hend
    have hstart : lm.order ≤ 1 ∨ seg.startPos ≤ h.length := Or.inr (by omega)
    refine ⟨(prePtrs lm.order seg.startPos).map (derefD lm h phrase),
      (postPtrs lm.order seg.endPos h.length).map (derefD lm h phrase), ?_, ?_, ?_, ?_, ?_, ?_⟩
    · rw [lmContextWords_eq lm h phrase seg hstart]
      simp only [contextPtrs, List.map_append, map_derefD_phrasePtrs]
    · simp only [List.length_append, List.length_map, prePtrs_length, postPtrs_length]
      omega
    · simp [prePtrs_length]
    · simp [postPtrs_length]
    · intro k hk
      exact getElem?_pre lm h phrase seg.startPos hstart k hk
    · intro i hi
      exact getElem?_post lm h phrase seg.endPos i hi
  · have hfree : lmContextWords (exampleLM 2 score) ["The", "cat", "sat"] ["slept", "quietly"] ⟨2, 2⟩
        = lmContextWords (exampleLM 2 fun _ => 0) ["The", "cat", "sat"] ["slept", "quietly"]
            ⟨2, 2⟩ := rfl
    rw [hfree]
    decide
  · have hfree : lmNgrams (exampleLM 2 score) ["The", "cat", "sat"] ["slept", "quietly"] ⟨2, 2⟩
        = lmNgrams (exampleLM 2 fun _ => 0) ["The", "cat", "sat"] ["slept", "quietly"]
            ⟨2, 2⟩ := rfl
    rw [hfree]
    decide

/-- C2, instance: the hypothesis `[The, cat, sat]` with a bigram model, span
`[2,2]` and phrase `[slept, quietly]`. -/
theorem C2_context_buffer_witness :
    ∃ pre post : List String,
      lmContextWords (exampleLM 2 fun _ => 0) ["The", "cat", "sat"] ["slept", "quietly"] ⟨2, 2⟩
        = some (pre ++ ["slept", "quietly"] ++ post) ∧
      pre = ["cat"] ∧ post = ["</s>"] := by
  obtain ⟨pre, post, hbuf, _, hpre, hpost, hk, hi⟩ :=
    C2_context_buffer.1 String Nat (exampleLM 2 fun _ => 0) ["The", "cat", "sat"] ⟨2, 2⟩
      ["slept", "quietly"] (by decide) (by decide) (by decide)
  refine ⟨pre, post, hbuf, ?_, ?_⟩
  · apply List.ext_getElem?
    intro n
    cases n with
    | zero => simpa [exampleLM] using hk 0 (by decide)
    | succ n =>
      have : pre.length = 1 := hpre
      simp [List.getElem?_eq_none, this]
  · apply List.ext_getElem?
    intro n
    cases n with
    | zero => simpa [exampleLM] using hi 0 (by decide)
    | succ n =>
      have : post.length = 1 := hpost
      simp [List.getElem?_eq_none, this]

/-- C4: sentinel capping. For every hypothesis, order `N ≥ 1`, span and phrase
(the buffer size being a `size_t` value), every n-gram handed to the language
model's scoring function contains at most one of the buffer slots that the
post-context loop filled with the sentence-end sentinel; and for a span inside
the hypothesis the n-grams are indeed produced. -/
theorem C4_sentinel_capping {W P : Type} (lm : LanguageModel W P) (h phrase : List W)
    (seg : WordsRange) (_hN : 1 ≤ lm.order)
    (hsize : phrase.length + 2 * (lm.order - 1) < 2 ^ 64) :
    (∀ gs, lmNgramPtrs lm h phrase seg = some gs →
      ∀ g ∈ gs, g.count WordPtr.sentenceEnd ≤ 1) ∧
    (seg.startPos ≤ seg.endPos → seg.endPos < h.length →
      ∃ gs, lmNgramPtrs lm h phrase seg = some gs) := by
  constructor
  · intro gs hgs g hg
    by_cases hdef : lm.order ≤ 1 ∨ seg.startPos ≤ h.length
    · rw [lmNgramPtrs_eq lm h phrase seg hdef] at hgs
      injection hgs with hgs
      subst hgs
      simp only [List.mem_map, List.mem_range] at hg
      obtain ⟨k, _, rfl⟩ := hg
      exact ((window_sublist_take _ _ _ _).count_le _).trans
        (count_take_maxend lm.order seg phrase.length h.length hsize)
    · simp [lmNgramPtrs, fillContext_none lm.order h phrase seg hdef] at hgs
  · intro hse hend
    exact ⟨_, lmNgramPtrs_eq lm h phrase seg (Or.inr (by omega))⟩

/-- C4, instance: a five-word hypothesis, a trigram model and the last word
replaced, so that both post-context slots run off the end. -/
theorem C4_sentinel_capping_witness :
    lmNgramPtrs (exampleLM 3 fun _ => 0) ["a", "b", "c", "d", "e"] ["x"] ⟨4, 4⟩
      = some [[WordPtr.target 2, WordPtr.target 3, WordPtr.phrase 0],
              [WordPtr.target 3, WordPtr.phrase 0, WordPtr.sentenceEnd],
              [WordPtr.phrase 0, WordPtr.sentenceEnd]] ∧
    ∀ g ∈ [[WordPtr.target 2, WordPtr.target 3, WordPtr.phrase 0],
           [WordPtr.target 3, WordPtr.phrase 0, WordPtr.sentenceEnd],
           [WordPtr.phrase 0, WordPtr.sentenceEnd]],
      g.count WordPtr.sentenceEnd ≤ 1 :=
  have hgs : lmNgramPtrs (exampleLM 3 fun _ => 0) ["a", "b", "c", "d", "e"] ["x"] ⟨4, 4⟩
      = some [[WordPtr.target 2, WordPtr.target 3, WordPtr.phrase 0],
              [WordPtr.target 3, WordPtr.phrase 0, WordPtr.sentenceEnd],
              [WordPtr.phrase 0, WordPtr.sentenceEnd]] := by decide
  ⟨hgs, (C4_sentinel_capping (exampleLM 3 fun _ => 0) ["a", "b", "c", "d", "e"] ["x"] ⟨4, 4⟩
    (by decide) (by decide)).1 _ hgs⟩

/-- C3, evaluated on the claim's own example. For the hypothesis `[Hello]`, a
trigram model, span `[0,0]` and phrase `[Hi]` the post-context loop counts two
sentence ends and the scoring loop hands three n-grams to the language model,
the last one being the truncated `(Hi, </s>)`; the claimed number
`usableLength - (N-1)` is two. -/
theorem C3_hello_scores_three_ngrams (score : List String → Int) :
    (fillContext 3 ["Hello"] ["Hi"] ⟨0, 0⟩).map (fun s => s.eoscount) = some 2 ∧
    lmNgrams (exampleLM 3 score) ["Hello"] ["Hi"] ⟨0, 0⟩
      = some [["<s>", "<s>", "Hi"], ["<s>", "Hi", "</s>"], ["Hi", "</s>"]] ∧
    (lmNgrams (exampleLM 3 score) ["Hello"] ["Hi"] ⟨0, 0⟩).map List.length = some 3 ∧
    usableLength 1 3 2 - (3 - 1) = 2 := by
  have hfree : lmNgrams (exampleLM 3 score) ["Hello"] ["Hi"] ⟨0, 0⟩
      = lmNgrams (exampleLM 3 fun _ => 0) ["Hello"] ["Hi"] ⟨0, 0⟩ := rfl
  rw [hfree]
  refine ⟨by decide, by decide, by decide, by decide⟩

/-- C6, evaluated: for the hypothesis `[Hello]`, span `[0,0]` and an option
whose target phrase `[Hi, there]` has two words, the word-penalty entry of the
constructed delta is `-1`, the negated length of the span, and not `-2`. -/
theorem C6_word_penalty_of_segment :
    (TranslationUpdateDelta.new (exampleSD 2 fun _ => 0) ["Hello"]
        (exampleOption ["Hi", "there"]) ⟨0, 0⟩).map
      (fun d => d.m_scores (exampleSD 2 fun _ => 0).wordPenaltyProducer 0) = some (-1) ∧
    -(((exampleOption ["Hi", "there"]).targetPhrase.length : Nat) : Int) = -2 := by
  refine ⟨by decide, by decide⟩

/-- C1, evaluated on two inputs. Replacing `[Hello]` by the two-word phrase
`[Hi, there]` (bigram model scoring everything `0`): the delta difference is
`0`, full rescoring gives `-1`. Replacing `[Hello]` by `[Hi]` under a trigram
model that gives `1` to `(Hi, </s>)` alone: the delta difference is `1`, full
rescoring gives `0`. -/
theorem C1_delta_differs_from_full_rescoring :
    (deltaDifference (exampleSD 2 fun _ => 0) ["Hello"] (exampleOption ["Hello"])
        (exampleOption ["Hi", "there"]) ⟨0, 0⟩ = some 0 ∧
      fullRescoringDifference (exampleSD 2 fun _ => 0) ["Hello"] (exampleOption ["Hello"])
        (exampleOption ["Hi", "there"]) ⟨0, 0⟩ = -1) ∧
    (deltaDifference (exampleSD 3 scoreHiEnd) ["Hello"] (exampleOption ["Hello"])
        (exampleOption ["Hi"]) ⟨0, 0⟩ = some 1 ∧
      fullRescoringDifference (exampleSD 3 scoreHiEnd) ["Hello"] (exampleOption ["Hello"])
        (exampleOption ["Hi"]) ⟨0, 0⟩ = 0) := by
  refine ⟨⟨by decide, by decide⟩, ⟨by decide, by decide⟩⟩

/-- C5, refuted as stated: construction for the span `[0,3]` of the one-word
hypothesis `[The]` (end beyond the word count) and construction for an empty
target phrase both produce a delta; the context buffers are `[<s>, x, </s>]`
and `[<s>, </s>]`, and the language-model entry `1` comes from the n-gram that
holds the substituted sentence end. -/
theorem C5_construction_does_not_fail :
    (TranslationUpdateDelta.new (exampleSD 2 scoreEnd) ["The"] (exampleOption ["x"]) ⟨0, 3⟩).map
        (fun d => d.m_scores 0 0) = some 1 ∧
    lmContextWords (exampleLM 2 scoreEnd) ["The"] ["x"] ⟨0, 3⟩ = some ["<s>", "x", "</s>"] ∧
    (TranslationUpdateDelta.new (exampleSD 2 scoreEnd) ["The"] (exampleOption []) ⟨0, 0⟩).map
        (fun d => d.m_scores 0 0) = some 1 ∧
    lmContextWords (exampleLM 2 scoreEnd) ["The"] [] ⟨0, 0⟩ = some ["<s>", "</s>"] := by
  refine ⟨by decide, by decide, by decide, by decide⟩

/-- C5, amended: construction does not fail on a span that ends outside the
hypothesis nor on an empty phrase. For language models of order `1 ≤ N ≤ 2^31`,
a span `start ≤ end` whose start is at most the word count and below `2^31`
and whose end has `end + N ≤ 2^64` (so that no target position wraps), and a
buffer size below `2^64`, the constructor produces a delta; if the span end is
at or beyond the word count, every post-context slot holds the sentence-end
sentinel; if the phrase is empty, the buffer is the pre-context followed by
the post-context. -/
theorem C5_construction_without_validation {W P : Type} [DecidableEq P] (sd : StaticData W P)
    (h : List W) (option : TranslationOption W P) (seg : WordsRange)
    (_hrange : ∀ lm ∈ sd.allLM, 1 ≤ lm.order ∧ lm.order ≤ 2 ^ 31 ∧
      seg.endPos + lm.order ≤ 2 ^ 64 ∧
      option.targetPhrase.length + 2 * (lm.order - 1) < 2 ^ 64)
    (_hse : seg.startPos ≤ seg.endPos) (hstart : seg.startPos ≤ h.length)
    (_hint : seg.startPos < 2 ^ 31) :
    (∃ d, TranslationUpdateDelta.new sd h option seg = some d) ∧
    (h.length ≤ seg.endPos → ∀ lm ∈ sd.allLM, ∃ pre : List W, pre.length = lm.order - 1 ∧
      lmContextWords lm h option.targetPhrase seg
        = some (pre ++ option.targetPhrase ++ List.replicate (lm.order - 1) lm.sentenceEnd)) ∧
    (option.targetPhrase = [] → ∀ lm ∈ sd.allLM, ∃ pre post : List W,
      pre.length = lm.order - 1 ∧ post.length = lm.order - 1 ∧
      lmContextWords lm h option.targetPhrase seg = some (pre ++ post)) := by
  have hall : ∀ lm ∈ sd.allLM, lm.order ≤ 1 ∨ seg.startPos ≤ h.length :=
    fun _ _ => Or.inr hstart
  refine ⟨⟨_, TranslationUpdateDelta.new_eq sd h option seg hall⟩, ?_, ?_⟩
  · intro hend lm hlm
    refine ⟨(prePtrs lm.order seg.startPos).map (derefD lm h option.targetPhrase), ?_, ?_⟩
    · simp [prePtrs_length]
    · rw [lmContextWords_eq lm h option.targetPhrase seg (hall lm hlm)]
      simp only [contextPtrs, List.map_append, map_derefD_phrasePtrs,
        postPtrs_all_end lm.order seg.endPos h.length hend, List.map_replicate]
      rfl
  · intro hempty lm hlm
    refine ⟨(prePtrs lm.order seg.startPos).map (derefD lm h option.targetPhrase),
      (postPtrs lm.order seg.endPos h.length).map (derefD lm h option.targetPhrase), ?_, ?_, ?_⟩
    · simp [prePtrs_length]
    · simp [postPtrs_length]
    · rw [lmContextWords_eq lm h option.targetPhrase seg (hall lm hlm)]
      simp [contextPtrs, hempty, phrasePtrs]

/-- C5 amended, instance: the span `[0,3]` of the hypothesis `[The]` under a
bigram model; the buffer is `[<s>, x, </s>]`. -/
theorem C5_construction_without_validation_witness :
    (∃ d, TranslationUpdateDelta.new (exampleSD 2 scoreEnd) ["The"] (exampleOption ["x"]) ⟨0, 3⟩
      = some d) ∧
    ∃ pre : List String, pre.length = 1 ∧
      lmContextWords (exampleLM 2 scoreEnd) ["The"] ["x"] ⟨0, 3⟩
        = some (pre ++ ["x"] ++ ["</s>"]) :=
  have hthm := C5_construction_without_validation (exampleSD 2 scoreEnd) ["The"]
    (exampleOption ["x"]) ⟨0, 3⟩ (by decide) (by decide) (by decide) (by decide)
  ⟨hthm.1, hthm.2.1 (by decide) (exampleLM 2 scoreEnd) (by simp [exampleSD])⟩

/-- C7, refuted as stated: for an option whose own score breakdown holds `5`
for the language model and `7` for the word penalty, the constructed delta
holds the language-model score `1` and the penalty `-1` at those producers,
not the sums `5 + 1` and `7 - 1`. -/
theorem C7_entries_are_not_sums :
    lmScore (exampleLM 2 scoreEnd) ["Hello"] ["Hi"] ⟨0, 0⟩ = some 1 ∧
    (exampleScoredOption ["Hi"]).scoreBreakdown 0 0 = 5 ∧
    (exampleScoredOption ["Hi"]).scoreBreakdown 1 0 = 7 ∧
    (TranslationUpdateDelta.new (exampleSD 2 scoreEnd) ["Hello"] (exampleScoredOption ["Hi"])
        ⟨0, 0⟩).map (fun d => (d.m_scores 0 0, d.m_scores 1 0)) = some (1, -1) := by
  refine ⟨by decide, by decide, by decide, by decide⟩

/-- C7, amended: with language-model producers that are pairwise distinct and
differ from the word-penalty producer, the score vector of the constructed
delta holds, for a configured language model, that model's `lmscore` alone;
for the word-penalty producer, the constructor's `penalty` alone; for every
other producer, the option's own scores. The language-model and word-penalty
values are assigned over the option's entries, not added to them. -/
theorem C7_assigned_entries {W P : Type} [DecidableEq P] (sd : StaticData W P)
    (h : List W) (option : TranslationOption W P) (seg : WordsRange)
    (hall : ∀ lm ∈ sd.allLM, lm.order ≤ 1 ∨ seg.startPos ≤ h.length)
    (hnd : (sd.allLM.map fun l => l.producer).Nodup)
    (hwp : ∀ lm ∈ sd.allLM, lm.producer ≠ sd.wordPenaltyProducer) :
    ∃ d, TranslationUpdateDelta.new sd h option seg = some d ∧
      (∀ lm ∈ sd.allLM, ∃ lmscore, lmScore lm h option.targetPhrase seg = some lmscore ∧
        ∀ k, d.m_scores lm.producer k = if k = 0 then lmscore else 0) ∧
      (∀ k, d.m_scores sd.wordPenaltyProducer k = if k = 0 then wordPenalty seg else 0) ∧
      (∀ p, p ≠ sd.wordPenaltyProducer → (∀ lm ∈ sd.allLM, lm.producer ≠ p) →
        d.m_scores p = option.scoreBreakdown p) := by
  refine ⟨_, TranslationUpdateDelta.new_eq sd h option seg hall, ?_, ?_, ?_⟩
  · intro lm hlm
    refine ⟨_, lmScore_isSome lm h option.targetPhrase seg (hall lm hlm), ?_⟩
    intro k
    exact assignLMScores_value sd.allLM h option.targetPhrase seg _ hnd lm hlm k
  · intro k
    simp only [assignLMScores_frame sd.allLM h option.targetPhrase seg _ sd.wordPenaltyProducer hwp]
    simp [ScoreComponentCollection.Assign]
  · intro p hp hlm
    simp only [assignLMScores_frame sd.allLM h option.targetPhrase seg _ p hlm]
    funext k
    simp [ScoreComponentCollection.Assign, ScoreComponentCollection.PlusEquals,
      ScoreComponentCollection.zero, hp]

/-- C7 amended, instance: the option that carries scores of its own, placed on
the span `[0,0]` of `[Hello]`. -/
theorem C7_assigned_entries_witness :
    ∃ d, TranslationUpdateDelta.new (exampleSD 2 scoreEnd) ["Hello"] (exampleScoredOption ["Hi"])
        ⟨0, 0⟩ = some d ∧
      ∀ k, d.m_scores 1 k = if k = 0 then -1 else 0 := by
  obtain ⟨d, hd, _, hwp, _⟩ :=
    C7_assigned_entries (exampleSD 2 scoreEnd) ["Hello"] (exampleScoredOption ["Hi"]) ⟨0, 0⟩
      (by decide) (by decide) (by decide)
  exact ⟨d, hd, hwp⟩

/-- C8: `apply(sample, baseline)` of a delta constructed for option `O` hands
the sample exactly `O` together with the vector `scores - baseline.scores`,
`scores` being the vector computed at construction and the difference being
taken entry by entry; that difference is also what the delta keeps, and the
baseline delta is left as it was. -/
theorem C8_apply_hands_over_difference {W P S : Type} [DecidableEq P] (sd : StaticData W P)
    (h : List W) (option : TranslationOption W P) (seg : WordsRange)
    (d : TranslationUpdateDelta W P)
    (hd : TranslationUpdateDelta.new sd h option seg = some d)
    (ChangeTarget : TranslationOption W P → ScoreComponentCollection P → S → S)
    (sample : S) (baseline : TranslationDelta P) :
    (d.apply ChangeTarget sample baseline).sample
        = ChangeTarget option (fun p k => d.m_scores p k - baseline.m_scores p k) sample ∧
    (d.apply ChangeTarget sample baseline).delta.m_scores
        = (fun p k => d.m_scores p k - baseline.m_scores p k) ∧
    (d.apply ChangeTarget sample baseline).noChangeDelta = baseline := by
  have hopt := TranslationUpdateDelta.new_option sd h option seg d hd
  subst hopt
  exact ⟨rfl, rfl, rfl⟩

/-- C8, instance: the sample is the list of calls it has received. -/
theorem C8_apply_hands_over_difference_witness :
    ∃ d, TranslationUpdateDelta.new (exampleSD 2 scoreEnd) ["Hello"] (exampleOption ["Hi"]) ⟨0, 0⟩
        = some d ∧
      ((d.apply (fun o _ calls => o.targetPhrase :: calls) []
          { m_scores := ScoreComponentCollection.zero, m_score := 0 }).sample
        = [["Hi"]]) :=
  ⟨_, TranslationUpdateDelta.new_eq (exampleSD 2 scoreEnd) ["Hello"] (exampleOption ["Hi"]) ⟨0, 0⟩
      (by decide),
    (C8_apply_hands_over_difference (exampleSD 2 scoreEnd) ["Hello"] (exampleOption ["Hi"]) ⟨0, 0⟩
      _ (TranslationUpdateDelta.new_eq (exampleSD 2 scoreEnd) ["Hello"] (exampleOption ["Hi"])
          ⟨0, 0⟩ (by decide))
      (fun o _ calls => o.targetPhrase :: calls) []
      { m_scores := ScoreComponentCollection.zero, m_score := 0 }).1⟩

/-- C9: the language-model step is idempotent and stateless. If
`addLanguageModelScore` turns a score vector `s` into `s'`, then running it
again on `s'` with the same target words, phrase and segment gives `s'` again;
and from any other starting vector it is defined as well and gives the same
entry for every configured language model. -/
theorem C9_idempotent_stateless {W P : Type} [DecidableEq P] (sd : StaticData W P)
    (h phrase : List W) (seg : WordsRange) (s s' : ScoreComponentCollection P)
    (hrun : addLanguageModelScore sd s h phrase seg = some s') :
    addLanguageModelScore sd s' h phrase seg = some s' ∧
    ∀ t, ∃ t', addLanguageModelScore sd t h phrase seg = some t' ∧
      ∀ lm ∈ sd.allLM, t' lm.producer = s' lm.producer := by
  have hall := addLanguageModelScore_defined sd s s' h phrase seg hrun
  rw [addLanguageModelScore_eq sd s h phrase seg hall] at hrun
  injection hrun with hrun
  subst hrun
  constructor
  · rw [addLanguageModelScore_eq sd _ h phrase seg hall, assignLMScores_idem]
  · intro t
    refine ⟨_, addLanguageModelScore_eq sd t h phrase seg hall, ?_⟩
    intro lm hlm
    exact assignLMScores_indep sd.allLM h phrase seg t s lm.producer ⟨lm, hlm, rfl⟩

/-- C9, instance: the bigram configuration on `[The, cat, sat]`, span `[2,2]`,
phrase `[slept, quietly]`, started from the zero vector. -/
theorem C9_idempotent_stateless_witness :
    ∃ s', addLanguageModelScore (exampleSD 2 scoreEnd) ScoreComponentCollection.zero
        ["The", "cat", "sat"] ["slept", "quietly"] ⟨2, 2⟩ = some s' ∧
      addLanguageModelScore (exampleSD 2 scoreEnd) s'
        ["The", "cat", "sat"] ["slept", "quietly"] ⟨2, 2⟩ = some s' :=
  ⟨_, addLanguageModelScore_eq (exampleSD 2 scoreEnd) ScoreComponentCollection.zero
      ["The", "cat", "sat"] ["slept", "quietly"] ⟨2, 2⟩ (by decide),
    (C9_idempotent_stateless (exampleSD 2 scoreEnd) ["The", "cat", "sat"] ["slept", "quietly"]
      ⟨2, 2⟩ ScoreComponentCollection.zero _
      (addLanguageModelScore_eq (exampleSD 2 scoreEnd) ScoreComponentCollection.zero
        ["The", "cat", "sat"] ["slept", "quietly"] ⟨2, 2⟩ (by decide))).1⟩

/-- C10: locality. For a language model of order `N`, a phrase and a span
`[start,end]`, two hypotheses of the same length that agree on the positions
`start-(N-1) .. start-1` and `end+1 .. end+N-1` get the same language-model
score, whatever they hold inside the span and farther away; the same is true
of `addLanguageModelScore` run with that model. -/
theorem C10_locality {W P : Type} [DecidableEq P] (lm : LanguageModel W P)
    (h1 h2 phrase : List W) (seg : WordsRange) (hlen : h1.length = h2.length)
    (hpre : ∀ pos, pos < seg.startPos → seg.startPos ≤ pos + (lm.order - 1) →
      h1[pos]? = h2[pos]?)
    (hpost : ∀ pos, seg.endPos < pos → pos ≤ seg.endPos + (lm.order - 1) →
      h1[pos]? = h2[pos]?) :
    lmScore lm h1 phrase seg = lmScore lm h2 phrase seg ∧
    ∀ (sd : StaticData W P) (scores : ScoreComponentCollection P), sd.allLM = [lm] →
      addLanguageModelScore sd scores h1 phrase seg
        = addLanguageModelScore sd scores h2 phrase seg := by
  have hscore := lmScore_congr lm h1 h2 phrase seg hlen hpre hpost
  refine ⟨hscore, ?_⟩
  intro sd scores hsd
  unfold addLanguageModelScore
  rw [hsd]
  simp only [List.foldlM_cons, List.foldlM_nil]
  rw [hscore]

/-- C10, instance: two five-word hypotheses that differ inside the span
`[2,2]` and at distance two from it, scored by a bigram model. -/
theorem C10_locality_witness :
    lmScore (exampleLM 2 scoreEnd) ["a", "b", "c", "d", "e"] ["x"] ⟨2, 2⟩ = some 0 ∧
    lmScore (exampleLM 2 scoreEnd) ["a", "b", "c", "d", "e"] ["x"] ⟨2, 2⟩
      = lmScore (exampleLM 2 scoreEnd) ["z", "b", "y", "d", "</s>"] ["x"] ⟨2, 2⟩ :=
  ⟨by decide,
   (C10_locality (exampleLM 2 scoreEnd) ["a", "b", "c", "d", "e"] ["z", "b", "y", "d", "</s>"]
      ["x"] ⟨2, 2⟩ rfl
      (by
        intro pos h1 h2
        have : pos = 1 := by
          simp [exampleLM] at h1 h2
          omega
        subst this
        rfl)
      (by
        intro pos h1 h2
        have : pos = 3 := by
          simp [exampleLM] at h1 h2
          omega
        subst this
        rfl)).1⟩

/-- C11, evaluated: in the five-word hypothesis `[a, b, c, d, e]` with a bigram
model, the spans `[0,0]` and `[4,4]` are more than `N-1` positions apart; the
two independent update deltas have word-penalty entries that add up to `-2`,
the paired delta, whose constructor is still to be written, has `0` there. -/
theorem C11_paired_is_not_the_sum :
    ((TranslationUpdateDelta.new (exampleSD 2 fun _ => 0) ["a", "b", "c", "d", "e"]
        (exampleOption ["x"]) ⟨0, 0⟩).bind fun left =>
      (TranslationUpdateDelta.new (exampleSD 2 fun _ => 0) ["a", "b", "c", "d", "e"]
        (exampleOption ["y"]) ⟨4, 4⟩).map fun right =>
        left.m_scores 1 0 + right.m_scores 1 0) = some (-2) ∧
    (PairedTranslationUpdateDelta.new 0 ["a", "b", "c", "d", "e"]
      (exampleOption ["x"]) (exampleOption ["y"]) ⟨0, 0⟩ ⟨4, 4⟩).m_scores 1 0 = 0 := by
  refine ⟨by decide, by decide⟩

/-- The constructor of `PairedTranslationUpdateDelta` is a placeholder: for
every hypothesis, pair of options and pair of segments its score vector is the
default, all-zero vector, which is the sum of the score vectors of two update
deltas exactly when that sum is zero everywhere. -/
theorem paired_placeholder_scores {W P : Type} (m_score0 : Int) (h : List W)
    (leftOption rightOption : TranslationOption W P) (leftSeg rightSeg : WordsRange) :
    (PairedTranslationUpdateDelta.new m_score0 h leftOption rightOption leftSeg rightSeg).m_scores
      = ScoreComponentCollection.zero ∧
    ∀ left right : TranslationUpdateDelta W P,
      (∀ p k, (PairedTranslationUpdateDelta.new m_score0 h leftOption rightOption leftSeg
          rightSeg).m_scores p k = left.m_scores p k + right.m_scores p k)
        ↔ ∀ p k, left.m_scores p k + right.m_scores p k = 0 := by
  refine ⟨rfl, fun left right => ⟨fun hsum p k => ?_, fun hzero p k => ?_⟩⟩
  · have := hsum p k
    simp only [PairedTranslationUpdateDelta.new, ScoreComponentCollection.zero] at this
    omega
  · have := hzero p k
    simp only [PairedTranslationUpdateDelta.new, ScoreComponentCollection.zero]
    omega

/-- C12, refuted as stated: a delta for `[Hi]` on the span `[0,0]` of `[Hello]`
is applied twice against the no-change delta of `[Hello]`. Both calls go
through: the sample receives the option twice, the second time with the
baseline subtracted twice (word-penalty entry `1` after `0`). -/
theorem C12_second_apply_goes_through :
    ((TranslationUpdateDelta.new (exampleSD 2 fun _ => 0) ["Hello"] (exampleOption ["Hi"])
        ⟨0, 0⟩).bind fun d =>
      (TranslationUpdateDelta.new (exampleSD 2 fun _ => 0) ["Hello"] (exampleOption ["Hello"])
        ⟨0, 0⟩).map fun noChange =>
        ((d.apply logChangeTarget [] noChange.toTranslationDelta).delta.apply logChangeTarget
          (d.apply logChangeTarget [] noChange.toTranslationDelta).sample
          noChange.toTranslationDelta).sample)
      = some [(["Hi"], 1), (["Hi"], 0)] := by
  decide

/-- C12, amended: `apply` keeps no record of having been called and checks
nothing. A second call on the delta left by the first one is carried out like
the first: it subtracts the baseline's vector once more and hands the sample
the same option with `scores - baseline.scores - baseline.scores`, on top of
the sample left by the first call. -/
theorem C12_apply_twice {W P S : Type} (d : TranslationUpdateDelta W P)
    (ChangeTarget : TranslationOption W P → ScoreComponentCollection P → S → S)
    (sample : S) (baseline : TranslationDelta P) :
    ((d.apply ChangeTarget sample baseline).delta.apply ChangeTarget
        (d.apply ChangeTarget sample baseline).sample baseline).sample
      = ChangeTarget d.m_option
          (fun p k => d.m_scores p k - baseline.m_scores p k - baseline.m_scores p k)
          (ChangeTarget d.m_option (fun p k => d.m_scores p k - baseline.m_scores p k) sample) ∧
    ((d.apply ChangeTarget sample baseline).delta.apply ChangeTarget
        (d.apply ChangeTarget sample baseline).sample baseline).delta.m_scores
      = (fun p k => d.m_scores p k - baseline.m_scores p k - baseline.m_scores p k) :=
  ⟨rfl, rfl⟩

/-- C14: for a buffer of size `L + 2(N-1)` below `2^64 - 1` and every
`eoscount ≤ N-1`, the `size_t` computation `min(size, size - (eoscount-1))`
gives `size` when `eoscount` is `0` or `1` and `size - (eoscount-1)` when
`eoscount > 1`. At `eoscount = 0` the subtraction `eoscount-1` wraps to
`2^64 - 1`, and the usable length is still exactly `size`. -/
theorem C14_maxend_arithmetic (len order eoscount : Nat) (_hN : 1 ≤ order)
    (hsize : len + 2 * (order - 1) < 2 ^ 64 - 1) (hec : eoscount ≤ order - 1) :
    maxend (len + 2 * (order - 1)) eoscount
      = (if eoscount ≤ 1 then len + 2 * (order - 1)
         else len + 2 * (order - 1) - (eoscount - 1)) ∧
    (0 + 2 ^ 64 - 1) % 2 ^ 64 = 2 ^ 64 - 1 ∧
    maxend (len + 2 * (order - 1)) 0 = len + 2 * (order - 1) := by
  have h64 : (2 : Nat) ^ 64 = 18446744073709551616 := by norm_num
  refine ⟨?_, by norm_num, maxend_zero _ hsize⟩
  by_cases h0 : eoscount = 0
  · subst h0
    simp [maxend_zero _ hsize]
  · rw [maxend_of_pos _ _ (by omega) (by omega) (by omega)]
    split <;> omega

/-- C14, instance: the five-slot buffer of a one-word phrase under a trigram
model, with no, one and two sentence ends. -/
theorem C14_maxend_arithmetic_witness :
    maxend 5 0 = 5 ∧ maxend 5 1 = 5 ∧ maxend 5 2 = 4 :=
  ⟨(C14_maxend_arithmetic 1 3 0 (by decide) (by decide) (by decide)).1,
   (C14_maxend_arithmetic 1 3 1 (by decide) (by decide) (by decide)).1,
   (C14_maxend_arithmetic 1 3 2 (by decide) (by decide) (by decide)).1⟩

/-- C16: a no-change mutation has zero marginal effect. If the baseline is the
update delta built from the same target words, the same option and the same
segment as the delta being applied, the vector that `apply` hands to the
sample, which is also the one the delta keeps, is zero for every producer. -/
theorem C16_no_change_is_zero {W P S : Type} [DecidableEq P] (sd : StaticData W P)
    (h : List W) (option : TranslationOption W P) (seg : WordsRange)
    (d noChange : TranslationUpdateDelta W P)
    (hd : TranslationUpdateDelta.new sd h option seg = some d)
    (hb : TranslationUpdateDelta.new sd h option seg = some noChange)
    (ChangeTarget : TranslationOption W P → ScoreComponentCollection P → S → S)
    (sample : S) :
    (d.apply ChangeTarget sample noChange.toTranslationDelta).sample
        = ChangeTarget option ScoreComponentCollection.zero sample ∧
    ∀ p k, (d.apply ChangeTarget sample noChange.toTranslationDelta).delta.m_scores p k = 0 := by
  have hsame : noChange = d := by
    rw [hd] at hb
    exact (Option.some.inj hb).symm
  have hopt := TranslationUpdateDelta.new_option sd h option seg d hd
  subst hsame
  subst hopt
  have hz : noChange.m_scores.MinusEquals noChange.toTranslationDelta.m_scores
      = ScoreComponentCollection.zero := by
    funext p k
    simp [ScoreComponentCollection.MinusEquals, ScoreComponentCollection.zero]
  refine ⟨?_, ?_⟩
  · simp only [TranslationUpdateDelta.apply, hz]
  · intro p k
    simp only [TranslationUpdateDelta.apply, hz]
    rfl

/-- C16, instance: the option `[Hello]` that occupies the span `[0,0]` of the
hypothesis `[Hello]`, applied against its own no-change delta. -/
theorem C16_no_change_is_zero_witness :
    ∃ d, TranslationUpdateDelta.new (exampleSD 2 scoreEnd) ["Hello"] (exampleOption ["Hello"])
        ⟨0, 0⟩ = some d ∧
      (d.apply logChangeTarget [] d.toTranslationDelta).sample = [(["Hello"], 0)] :=
  ⟨_, TranslationUpdateDelta.new_eq (exampleSD 2 scoreEnd) ["Hello"] (exampleOption ["Hello"])
      ⟨0, 0⟩ (by decide),
    (C16_no_change_is_zero (exampleSD 2 scoreEnd) ["Hello"] (exampleOption ["Hello"]) ⟨0, 0⟩ _ _
      (TranslationUpdateDelta.new_eq (exampleSD 2 scoreEnd) ["Hello"] (exampleOption ["Hello"])
        ⟨0, 0⟩ (by decide))
      (TranslationUpdateDelta.new_eq (exampleSD 2 scoreEnd) ["Hello"] (exampleOption ["Hello"])
        ⟨0, 0⟩ (by decide))
      logChangeTarget []).1⟩

/-- C15, refuted as stated: the delta for `[Hi]` on the span `[0,0]` of
`[Hello]` (all language-model scores `0`, both weights `1`) is applied against
the no-change delta of `[Hello]`. Afterwards the stored total is still `-1`,
while the weighted inner product of the current score vector is `0`. -/
theorem C15_total_is_stale_after_apply :
    ((TranslationUpdateDelta.new (exampleSD 2 fun _ => 0) ["Hello"] (exampleOption ["Hi"])
        ⟨0, 0⟩).bind fun d =>
      (TranslationUpdateDelta.new (exampleSD 2 fun _ => 0) ["Hello"] (exampleOption ["Hello"])
        ⟨0, 0⟩).map fun noChange =>
        ((d.apply logChangeTarget [] noChange.toTranslationDelta).delta.m_score,
         (d.apply logChangeTarget [] noChange.toTranslationDelta).delta.m_scores.InnerProduct
            (exampleSD 2 fun _ => 0).scoreProducers (exampleSD 2 fun _ => 0).allWeights))
      = some (-1, 0) := by
  decide

/-- C15, amended: the stored total is the weighted inner product of the score
vector computed at construction. `apply` subtracts the baseline's vector from
the score vector and leaves the total as it was, so that afterwards the inner
product of the current vector is the stored total minus the inner product of
the baseline's vector. -/
theorem C15_total_of_construction {W P S : Type} [DecidableEq P] (sd : StaticData W P)
    (h : List W) (option : TranslationOption W P) (seg : WordsRange)
    (d : TranslationUpdateDelta W P)
    (hd : TranslationUpdateDelta.new sd h option seg = some d)
    (ChangeTarget : TranslationOption W P → ScoreComponentCollection P → S → S)
    (sample : S) (baseline : TranslationDelta P) :
    d.m_score = d.m_scores.InnerProduct sd.scoreProducers sd.allWeights ∧
    (d.apply ChangeTarget sample baseline).delta.m_score = d.m_score ∧
    (d.apply ChangeTarget sample baseline).delta.m_scores.InnerProduct sd.scoreProducers
        sd.allWeights
      = d.m_score - baseline.m_scores.InnerProduct sd.scoreProducers sd.allWeights := by
  have hscore : d.m_score = d.m_scores.InnerProduct sd.scoreProducers sd.allWeights := by
    unfold TranslationUpdateDelta.new at hd
    simp only [Option.map_eq_some'] at hd
    obtain ⟨_, _, rfl⟩ := hd
    rfl
  refine ⟨hscore, rfl, ?_⟩
  rw [hscore]
  exact InnerProduct_MinusEquals sd.scoreProducers d.m_scores baseline.m_scores sd.allWeights

/-- C15 amended, instance: the delta for `[Hi]` on the span `[0,0]` of
`[Hello]`; its stored total is `-1`, the word penalty of the span. -/
theorem C15_total_of_construction_witness :
    ∃ d, TranslationUpdateDelta.new (exampleSD 2 fun _ => 0) ["Hello"] (exampleOption ["Hi"])
        ⟨0, 0⟩ = some d ∧
      d.m_score = d.m_scores.InnerProduct (exampleSD 2 fun _ => 0).scoreProducers
        (exampleSD 2 fun _ => 0).allWeights :=
  ⟨_, TranslationUpdateDelta.new_eq (exampleSD 2 fun _ => 0) ["Hello"] (exampleOption ["Hi"])
      ⟨0, 0⟩ (by decide),
    (C15_total_of_construction (exampleSD 2 fun _ => 0) ["Hello"] (exampleOption ["Hi"]) ⟨0, 0⟩ _
      (TranslationUpdateDelta.new_eq (exampleSD 2 fun _ => 0) ["Hello"] (exampleOption ["Hi"])
        ⟨0, 0⟩ (by decide))
      logChangeTarget [] { m_scores := ScoreComponentCollection.zero, m_score := 0 }).1⟩

/-- C17: for a language model of order `N ≥ 1`, a hypothesis, a span
`start ≤ end < word count` and a phrase of length `L` (the buffer size being a
`size_t` value), the scoring loop hands exactly `L + N - 1` n-grams to the
language model, a number in which neither the hypothesis length nor the span
position nor `eoscount` occurs; the n-gram with offset `k` is read from the
slots `ngramSlots N maxend k`. When `eoscount ≥ 1`, the slots that hold the
sentence end are exactly those from `retained = size - eoscount` on, `maxend`
is `retained + 1`, so that `retained` is the one sentence-end slot an n-gram
can reach, and exactly `eoscount` of the n-grams have `retained` as their last
slot. -/
theorem C17_ngram_count {W P : Type} (lm : LanguageModel W P) (h phrase : List W)
    (seg : WordsRange) (hN : 1 ≤ lm.order)
    (hsize : phrase.length + 2 * (lm.order - 1) < 2 ^ 64)
    (hse : seg.startPos ≤ seg.endPos) (hend : seg.endPos < h.length) :
    ∃ (gs : List (List W)) (ptrs : List (List WordPtr)) (s : FillState) (mx retained : Nat),
      lmNgrams lm h phrase seg = some gs ∧
      lmNgramPtrs lm h phrase seg = some ptrs ∧
      fillContext lm.order h phrase seg = some s ∧
      gs.length = phrase.length + lm.order - 1 ∧
      ptrs.length = phrase.length + lm.order - 1 ∧
      s.lmcontext.length = phrase.length + 2 * (lm.order - 1) ∧
      mx = maxend s.lmcontext.length s.eoscount ∧
      retained = s.lmcontext.length - s.eoscount ∧
      (∀ k, k < phrase.length + lm.order - 1 →
        (ngramSlots lm.order mx k).mapM (fun j => s.lmcontext[j]?) = ptrs[k]?) ∧
      (1 ≤ s.eoscount →
        mx = retained + 1 ∧
        (∀ j, j < s.lmcontext.length →
          (s.lmcontext[j]? = some WordPtr.sentenceEnd ↔ retained ≤ j)) ∧
        (∀ k, k < phrase.length + lm.order - 1 →
          ∀ j ∈ ngramSlots lm.order mx k, j ≤ retained) ∧
        (List.range (phrase.length + lm.order - 1)).countP
            (fun k => decide ((ngramSlots lm.order mx k).getLast? = some retained))
          = s.eoscount ∧
        ptrs.countP (fun g => decide (g.getLast? = some WordPtr.sentenceEnd)) = s.eoscount) := by
  have hdef : lm.order ≤ 1 ∨ seg.startPos ≤ h.length := Or.inr (by omega)
  have hle := eosCount_le lm.order seg.endPos h.length
  have hM : phrase.length + lm.order - 1 = phrase.length + (lm.order - 1) := by omega
  have hlen := contextPtrs_length lm.order seg phrase.length h.length
  refine ⟨_, _, _, maxend (phrase.length + 2 * (lm.order - 1))
      (eosCount lm.order seg.endPos h.length),
    phrase.length + 2 * (lm.order - 1) - eosCount lm.order seg.endPos h.length,
    lmNgrams_eq lm h phrase seg hdef, lmNgramPtrs_eq lm h phrase seg hdef,
    fillContext_eq_contextPtrs lm.order h phrase seg hdef, ?_, ?_, hlen, ?_, ?_, ?_, ?_⟩
  · simp only [List.length_map, List.length_range]
    omega
  · simp only [List.length_map, List.length_range]
    omega
  · show _ = maxend (contextPtrs lm.order seg phrase.length h.length).length _
    rw [hlen]
  · show _ = (contextPtrs lm.order seg phrase.length h.length).length - _
    rw [hlen]
  · intro k hk
    show (ngramSlots lm.order _ k).mapM
      (fun j => (contextPtrs lm.order seg phrase.length h.length)[j]?) = _
    rw [buildNgram_slots, buildNgram_eq _ _ _ _ (by rw [hlen]; exact maxend_le _ _),
      List.getElem?_map, List.getElem?_range (by omega)]
    rfl
  · intro hec
    have hec : 1 ≤ eosCount lm.order seg.endPos h.length := hec
    have hmx := maxend_of_pos (phrase.length + 2 * (lm.order - 1))
      (eosCount lm.order seg.endPos h.length) hsize hec (by omega)
    have hmx' : maxend (phrase.length + 2 * (lm.order - 1))
        (eosCount lm.order seg.endPos h.length)
        = phrase.length + 2 * (lm.order - 1) - eosCount lm.order seg.endPos h.length + 1 := by
      rw [hmx]
      omega
    refine ⟨hmx', ?_, ?_, ?_, ?_⟩
    · intro j hj
      have hj' : j < phrase.length + 2 * (lm.order - 1) := by
        have : j < (contextPtrs lm.order seg phrase.length h.length).length := hj
        rw [hlen] at this
        exact this
      exact contextPtrs_sentenceEnd_iff lm.order seg phrase.length h.length j hj'
    · intro k _ j hj
      have := ngramSlots_lt _ _ _ _ hj
      omega
    · show List.countP _ _ = eosCount lm.order seg.endPos h.length
      rw [hM, List.countP_congr (q := fun k => decide
        (phrase.length + (lm.order - 1) - eosCount lm.order seg.endPos h.length ≤ k))]
      · rw [countP_range_ge]
        omega
      · intro k hk
        simp only [List.mem_range] at hk
        simp only [decide_eq_true_eq]
        rw [ngramSlots_getLast? lm.order _ k _ hmx' (by omega) hN]
        omega
    · show List.countP _ _ = eosCount lm.order seg.endPos h.length
      rw [List.countP_map]
      rw [List.countP_congr (q := fun k => decide
        (phrase.length + (lm.order - 1) - eosCount lm.order seg.endPos h.length ≤ k))]
      · rw [countP_range_ge]
        omega
      · intro k hk
        simp only [List.mem_range] at hk
        simp only [Function.comp_apply, decide_eq_true_eq]
        exact window_ends_at_sentenceEnd lm.order seg phrase.length h.length k hN hsize hec hk

/-- C17, instance: the hypothesis `[Hello]`, a trigram model, span `[0,0]` and
phrase `[Hi]`. The buffer has five slots, the sentence end sits in slots `3`
and `4`, slot `3` is retained, the three n-grams are read from the slots
`[0,1,2]`, `[1,2,3]` and `[2,3]`, and two of them end at slot `3`. -/
theorem C17_ngram_count_witness :
    ∃ (s : FillState) (mx retained : Nat),
      fillContext 3 ["Hello"] ["Hi"] ⟨0, 0⟩ = some s ∧
      s.eoscount = 2 ∧ mx = 4 ∧ retained = 3 ∧
      [ngramSlots 3 mx 0, ngramSlots 3 mx 1, ngramSlots 3 mx 2] = [[0, 1, 2], [1, 2, 3], [2, 3]] ∧
      (List.range 3).countP (fun k => decide ((ngramSlots 3 mx k).getLast? = some retained))
        = 2 := by
  obtain ⟨_, _, s, mx, retained, _, _, hs, _, _, _, hmx, hret, _, hrest⟩ :=
    C17_ngram_count (exampleLM 3 fun _ => 0) ["Hello"] ["Hi"] ⟨0, 0⟩ (by decide) (by decide)
      (by decide) (by decide)
  have hs2 : fillContext 3 ["Hello"] ["Hi"] ⟨0, 0⟩ = some s := hs
  have heval : fillContext 3 ["Hello"] ["Hi"] ⟨0, 0⟩
      = some { lmcontext := [WordPtr.sentenceStart, WordPtr.sentenceStart, WordPtr.phrase 0,
                 WordPtr.sentenceEnd, WordPtr.sentenceEnd],
               contextPos := 5, eoscount := 2 } := by decide
  rw [hs2] at heval
  have hs3 := Option.some.inj heval
  subst hs3
  have hmx4 : mx = 4 := by
    rw [hmx]
    decide
  have hret3 : retained = 3 := hret
  have hcount := (hrest (by decide)).2.2.2.1
  subst hmx4
  subst hret3
  exact ⟨_, 4, 3, hs2, rfl, rfl, rfl, by decide, hcount⟩

/-- C18: for a language model of order `N ≥ 1`, a span that starts inside the
hypothesis and a buffer size below `2^64 - 1`, every n-gram handed to the
language model is non-empty and has at most `N` words; it has exactly `N`
words whenever `eoscount ≤ 1`; and for `N ≥ 2` it has at least two words. -/
theorem C18_ngram_lengths {W P : Type} (lm : LanguageModel W P) (h phrase : List W)
    (seg : WordsRange) (hN : 1 ≤ lm.order)
    (hsize : phrase.length + 2 * (lm.order - 1) < 2 ^ 64 - 1)
    (hstart : seg.startPos ≤ h.length) :
    ∃ (gs : List (List W)) (s : FillState),
      lmNgrams lm h phrase seg = some gs ∧
      fillContext lm.order h phrase seg = some s ∧
      ∀ g ∈ gs, 1 ≤ g.length ∧ g.length ≤ lm.order ∧
        (s.eoscount ≤ 1 → g.length = lm.order) ∧ (2 ≤ lm.order → 2 ≤ g.length) := by
  have hdef : lm.order ≤ 1 ∨ seg.startPos ≤ h.length := Or.inr hstart
  refine ⟨_, _, lmNgrams_eq lm h phrase seg hdef,
    fillContext_eq_contextPtrs lm.order h phrase seg hdef, ?_⟩
  intro g hg
  simp only [List.mem_map, List.mem_range] at hg
  obtain ⟨k, hk, rfl⟩ := hg
  have hle := eosCount_le lm.order seg.endPos h.length
  have hmx := maxend_eq (phrase.length + 2 * (lm.order - 1))
    (eosCount lm.order seg.endPos h.length) hsize (by omega)
  rw [window_length, List.length_map, contextPtrs_length, hmx]
  simp only
  split <;> omega

/-- C18, instance: the hypothesis `[Hello]`, a trigram model, span `[0,0]` and
phrase `[Hi]`; the n-grams have three, three and two words. -/
theorem C18_ngram_lengths_witness :
    ∃ gs : List (List String),
      lmNgrams (exampleLM 3 fun _ => 0) ["Hello"] ["Hi"] ⟨0, 0⟩ = some gs ∧
      gs.map List.length = [3, 3, 2] ∧
      ∀ g ∈ gs, 1 ≤ g.length ∧ g.length ≤ 3 := by
  obtain ⟨gs, _, hgs, _, hall⟩ :=
    C18_ngram_lengths (exampleLM 3 fun _ => 0) ["Hello"] ["Hi"] ⟨0, 0⟩ (by decide) (by decide)
      (by decide)
  have heval : lmNgrams (exampleLM 3 fun _ => 0) ["Hello"] ["Hi"] ⟨0, 0⟩
      = some [["<s>", "<s>", "Hi"], ["<s>", "Hi", "</s>"], ["Hi", "</s>"]] := by decide
  have hgs2 : gs = [["<s>", "<s>", "Hi"], ["<s>", "Hi", "</s>"], ["Hi", "</s>"]] := by
    rw [hgs] at heval
    exact Option.some.inj heval
  refine ⟨gs, hgs, ?_, fun g hg => ⟨(hall g hg).1, (hall g hg).2.1⟩⟩
  rw [hgs2]
  rfl

/-- C19, refuted as stated: two options without scores of their own are
placed on the span `[0,0]` of `[Hello]` under a bigram model that gives `1` to
every n-gram. The language-model entry is `2` for the phrase `[Hi]` and `3`
for the phrase `[Hi, there]`: it depends on the length of the option's
phrase. -/
theorem C19_lm_entry_depends_on_phrase_length :
    (TranslationUpdateDelta.new (exampleSD 2 fun _ => 1) ["Hello"] (exampleOption ["Hi"])
        ⟨0, 0⟩).map (fun d => d.m_scores 0 0) = some 2 ∧
    (TranslationUpdateDelta.new (exampleSD 2 fun _ => 1) ["Hello"] (exampleOption ["Hi", "there"])
        ⟨0, 0⟩).map (fun d => d.m_scores 0 0) = some 3 := by
  refine ⟨by decide, by decide⟩

/-- C19, amended: for a hypothesis shorter than `2^31` words, a span
`start ≤ end < word count`, language models of order `1 ≤ N ≤ 2^31` whose
buffers have a `size_t` size and whose producers are pairwise distinct and
different from the word-penalty producer, the score vector of a freshly
constructed update delta holds: for the word-penalty producer,
`-(end - start + 1)` of the replaced segment; for each configured language
model, the sum of that model's values over the `L + N - 1` windows of the
context buffer; for every other producer, the option's own entry. The
word-penalty and language-model entries are assigned, so they do not depend on
what the option's score breakdown holds for those producers; the word-penalty
entry is the same for every option, whatever the length of its phrase; a
language-model entry is the same for options with the same target phrase. -/
theorem C19_fresh_score_vector {W P : Type} [DecidableEq P] (sd : StaticData W P)
    (h : List W) (option : TranslationOption W P) (seg : WordsRange)
    (_hrange : ∀ lm ∈ sd.allLM, 1 ≤ lm.order ∧ lm.order ≤ 2 ^ 31 ∧
      option.targetPhrase.length + 2 * (lm.order - 1) < 2 ^ 64)
    (hshort : h.length < 2 ^ 31)
    (hse : seg.startPos ≤ seg.endPos) (hend : seg.endPos < h.length)
    (hnd : (sd.allLM.map fun l => l.producer).Nodup)
    (hwp : ∀ lm ∈ sd.allLM, lm.producer ≠ sd.wordPenaltyProducer) :
    ∃ d, TranslationUpdateDelta.new sd h option seg = some d ∧
      (∀ k, d.m_scores sd.wordPenaltyProducer k
        = if k = 0 then -((seg.endPos : Int) - (seg.startPos : Int) + 1) else 0) ∧
      (∀ lm ∈ sd.allLM, ∃ (words : List W) (s : FillState),
        lmContextWords lm h option.targetPhrase seg = some words ∧
        fillContext lm.order h option.targetPhrase seg = some s ∧
        ∀ k, d.m_scores lm.producer k
          = if k = 0 then
              ((List.range (option.targetPhrase.length + (lm.order - 1))).map fun j =>
                lm.GetValue ((words.drop j).take
                  (min (j + lm.order) (maxend words.length s.eoscount) - j))).sum
            else 0) ∧
      (∀ p, p ≠ sd.wordPenaltyProducer → (∀ lm ∈ sd.allLM, lm.producer ≠ p) →
        d.m_scores p = option.scoreBreakdown p) ∧
      (∀ option' d',
        (∀ lm ∈ sd.allLM, option'.targetPhrase.length + 2 * (lm.order - 1) < 2 ^ 64) →
        TranslationUpdateDelta.new sd h option' seg = some d' →
        d'.m_scores sd.wordPenaltyProducer = d.m_scores sd.wordPenaltyProducer ∧
        (option'.targetPhrase = option.targetPhrase →
          ∀ lm ∈ sd.allLM, d'.m_scores lm.producer = d.m_scores lm.producer)) := by
  have hstart : seg.startPos ≤ h.length := by omega
  have hall : ∀ lm ∈ sd.allLM, lm.order ≤ 1 ∨ seg.startPos ≤ h.length :=
    fun _ _ => Or.inr hstart
  have hwpval : ∀ (o : TranslationOption W P) (k : Nat),
      assignLMScores sd.allLM h o.targetPhrase seg
        ((ScoreComponentCollection.zero.PlusEquals o.scoreBreakdown).Assign
          sd.wordPenaltyProducer (wordPenalty seg)) sd.wordPenaltyProducer k
        = if k = 0 then wordPenalty seg else 0 := by
    intro o k
    rw [assignLMScores_frame sd.allLM h o.targetPhrase seg _ sd.wordPenaltyProducer hwp]
    simp [ScoreComponentCollection.Assign]
  refine ⟨_, TranslationUpdateDelta.new_eq sd h option seg hall, ?_, ?_, ?_, ?_⟩
  · intro k
    dsimp only
    rw [hwpval option k]
    have hpen : wordPenalty seg = -((seg.endPos : Int) - (seg.startPos : Int) + 1) := by
      have h31 : (2 : Nat) ^ 31 = 2147483648 := by norm_num
      have h32 : (2 : Nat) ^ 32 = 4294967296 := by norm_num
      have hI32 : (2 : Int) ^ 32 = 4294967296 := by norm_num
      rw [h31] at hshort
      simp only [wordPenalty, sizeToInt, WordsRange.GetNumWordsCovered, h31, h32, hI32]
      split <;> omega
    rw [hpen]
  · intro lm hlm
    refine ⟨_, _, lmContextWords_eq lm h option.targetPhrase seg (hall lm hlm),
      fillContext_eq_contextPtrs lm.order h option.targetPhrase seg (hall lm hlm), ?_⟩
    intro k
    dsimp only
    rw [assignLMScores_value sd.allLM h option.targetPhrase seg _ hnd lm hlm k]
    have hsum := lmScore_eq_sum lm h option.targetPhrase seg (hall lm hlm)
    have hD : lmScoreD lm h option.targetPhrase seg
        = ((List.range (option.targetPhrase.length + (lm.order - 1))).map fun j =>
            lm.GetValue
              (window ((contextPtrs lm.order seg option.targetPhrase.length h.length).map
                  (derefD lm h option.targetPhrase))
                lm.order
                (maxend (option.targetPhrase.length + 2 * (lm.order - 1))
                  (eosCount lm.order seg.endPos h.length)) j)).sum := by
      unfold lmScoreD
      rw [hsum]
      rfl
    rw [hD]
    simp only [window, List.length_map, contextPtrs_length]
  · intro p hp hlm
    simp only [assignLMScores_frame sd.allLM h option.targetPhrase seg _ p hlm]
    funext k
    simp [ScoreComponentCollection.Assign, ScoreComponentCollection.PlusEquals,
      ScoreComponentCollection.zero, hp]
  · intro option' d' _ hd'
    rw [TranslationUpdateDelta.new_eq sd h option' seg hall] at hd'
    have hd'' := Option.some.inj hd'
    subst hd''
    refine ⟨?_, ?_⟩
    · funext k
      dsimp only
      rw [hwpval option' k, hwpval option k]
    · intro hphrase lm hlm
      funext k
      dsimp only
      rw [assignLMScores_value sd.allLM h _ seg _ hnd lm hlm k,
        assignLMScores_value sd.allLM h _ seg _ hnd lm hlm k, hphrase]

/-- C19 amended, instance: the option that carries scores of its own, placed
on the span `[0,0]` of `[Hello]`: the word-penalty entry is `-1`, not the `7`
of the option's breakdown and not the negated length of its two-word phrase. -/
theorem C19_fresh_score_vector_witness :
    ∃ d, TranslationUpdateDelta.new (exampleSD 2 scoreEnd) ["Hello"]
        (exampleScoredOption ["Hi", "there"]) ⟨0, 0⟩ = some d ∧
      ∀ k, d.m_scores 1 k = if k = 0 then -1 else 0 := by
  obtain ⟨d, hd, hwp, _⟩ :=
    C19_fresh_score_vector (exampleSD 2 scoreEnd) ["Hello"] (exampleScoredOption ["Hi", "there"])
      ⟨0, 0⟩ (by decide) (by decide) (by decide) (by decide) (by decide) (by decide)
  exact ⟨d, hd, hwp⟩

/-- C13: under `start ≤ end < word count` and `N ≥ 1`,
`addLanguageModelScore` is safe. There is a final buffer of `L + 2(N-1)`
addresses, none of them null, every `targetWords` address below the word count
and every phrase address below `L`, such that: after `t` iterations of the
pre-context loop, of the phrase loop and of the post-context loop the cursor
has advanced by `t`, the slots before the cursor hold their final addresses
and the slots from the cursor on are still unwritten (each iteration writes
the one slot under the cursor, so every slot is written exactly once); the
three loops run to their end, which leaves the final buffer; and the scoring
loop, which runs afterwards, reads only inside the buffer and dereferences
every address, so that the n-grams and the score are produced. -/
theorem C13_safety {W P : Type} (lm : LanguageModel W P) (h phrase : List W)
    (seg : WordsRange) (_hN : 1 ≤ lm.order) (hse : seg.startPos ≤ seg.endPos)
    (hend : seg.endPos < h.length) :
    ∃ (final : List WordPtr) (s1 s2 s3 : FillState),
      final.length = phrase.length + 2 * (lm.order - 1) ∧
      (∀ p ∈ final, p ≠ WordPtr.null ∧ (∀ pos, p = WordPtr.target pos → pos < h.length) ∧
        (∀ pos, p = WordPtr.phrase pos → pos < phrase.length)) ∧
      (∀ t, t ≤ lm.order - 1 → ∃ s,
        forRange (preContextStep h ((seg.startPos : Int) - ((lm.order - 1 : Nat) : Int))) t 0
          { lmcontext := List.replicate (phrase.length + 2 * (lm.order - 1)) WordPtr.null,
            contextPos := 0, eoscount := 0 } = some s ∧
        s.contextPos = t ∧
        s.lmcontext = final.take t
          ++ List.replicate (phrase.length + 2 * (lm.order - 1) - t) WordPtr.null) ∧
      forRange (preContextStep h ((seg.startPos : Int) - ((lm.order - 1 : Nat) : Int)))
          (lm.order - 1) 0
          { lmcontext := List.replicate (phrase.length + 2 * (lm.order - 1)) WordPtr.null,
            contextPos := 0, eoscount := 0 } = some s1 ∧
      (∀ t, t ≤ phrase.length → ∃ s,
        forRange (phraseStep phrase) t 0 s1 = some s ∧
        s.contextPos = lm.order - 1 + t ∧
        s.lmcontext = final.take (lm.order - 1 + t)
          ++ List.replicate (phrase.length + 2 * (lm.order - 1) - (lm.order - 1 + t))
              WordPtr.null) ∧
      forRange (phraseStep phrase) phrase.length 0 s1 = some s2 ∧
      (∀ t, t ≤ lm.order - 1 → ∃ s,
        forRange (postContextStep h seg) t 0 s2 = some s ∧
        s.contextPos = lm.order - 1 + phrase.length + t ∧
        s.lmcontext = final.take (lm.order - 1 + phrase.length + t)
          ++ List.replicate
              (phrase.length + 2 * (lm.order - 1) - (lm.order - 1 + phrase.length + t))
              WordPtr.null) ∧
      forRange (postContextStep h seg) (lm.order - 1) 0 s2 = some s3 ∧
      fillContext lm.order h phrase seg = some s3 ∧
      s3.lmcontext = final ∧
      s3.contextPos = phrase.length + 2 * (lm.order - 1) ∧
      (∃ gs, lmNgrams lm h phrase seg = some gs) ∧
      (∃ lmscore, lmScore lm h phrase seg = some lmscore) := by
  have hstart : seg.startPos ≤ h.length := by omega
  have hdef : lm.order ≤ 1 ∨ seg.startPos ≤ h.length := Or.inr hstart
  have hpreB := fun i s hi hs =>
    preContextStep_eq lm.order h seg.startPos hdef i s hi hs
  have hphrB := fun i s hi hs => phraseStep_eq phrase i s hi hs
  have hpostB := fun i s (_ : i < lm.order - 1) hs => postContextStep_eq h seg i s hs
  have hpre : ∀ t, t ≤ lm.order - 1 → (prePtrs lm.order seg.startPos).take t
      = (List.range t).map (fun i =>
          if seg.startPos + i < lm.order - 1 then WordPtr.sentenceStart
          else WordPtr.target (seg.startPos + i - (lm.order - 1))) :=
    fun t ht => take_map_range _ _ t ht
  have hphr : ∀ t, t ≤ phrase.length → (phrasePtrs phrase.length).take t
      = (List.range t).map WordPtr.phrase :=
    fun t ht => take_map_range _ _ t ht
  have hpost : ∀ t, t ≤ lm.order - 1 → (postPtrs lm.order seg.endPos h.length).take t
      = (List.range t).map (fun i =>
          if h.length ≤ i + seg.endPos + 1 then WordPtr.sentenceEnd
          else WordPtr.target (i + seg.endPos + 1)) :=
    fun t ht => take_map_range _ _ t ht
  -- the pre-context loop
  have L1 : ∀ t, t ≤ lm.order - 1 → ∃ s,
      forRange (preContextStep h ((seg.startPos : Int) - ((lm.order - 1 : Nat) : Int))) t 0
        { lmcontext := List.replicate (phrase.length + 2 * (lm.order - 1)) WordPtr.null,
          contextPos := 0, eoscount := 0 } = some s ∧
      s.contextPos = t ∧
      s.lmcontext = (contextPtrs lm.order seg phrase.length h.length).take t
        ++ List.replicate (phrase.length + 2 * (lm.order - 1) - t) WordPtr.null := by
    intro t ht
    obtain ⟨s, hrun, hpos, hbuf⟩ := forRange_fill_prefix _ _ (fun _ => 0) (lm.order - 1) hpreB
      { lmcontext := List.replicate (phrase.length + 2 * (lm.order - 1)) WordPtr.null,
        contextPos := 0, eoscount := 0 } [] (phrase.length + 2 * (lm.order - 1)) rfl rfl t
      (by omega) ht
    refine ⟨s, hrun, by simpa using hpos, ?_⟩
    rw [hbuf, contextPtrs, List.append_assoc (prePtrs lm.order seg.startPos),
      List.take_append_of_le_length (by rw [prePtrs_length]; exact ht), hpre t ht]
    rfl
  obtain ⟨s1, hs1, hp1, hb1⟩ := L1 (lm.order - 1) (Nat.le_refl _)
  have hb1' : s1.lmcontext = prePtrs lm.order seg.startPos
      ++ List.replicate (phrase.length + (lm.order - 1)) WordPtr.null := by
    rw [hb1, contextPtrs, List.append_assoc (prePtrs lm.order seg.startPos),
      List.take_append_of_le_length (by rw [prePtrs_length]),
      List.take_of_length_le (by rw [prePtrs_length])]
    congr 2
    omega
  -- the phrase loop
  have L2 : ∀ t, t ≤ phrase.length → ∃ s,
      forRange (phraseStep phrase) t 0 s1 = some s ∧
      s.contextPos = lm.order - 1 + t ∧
      s.lmcontext = (contextPtrs lm.order seg phrase.length h.length).take (lm.order - 1 + t)
        ++ List.replicate (phrase.length + 2 * (lm.order - 1) - (lm.order - 1 + t))
            WordPtr.null := by
    intro t ht
    obtain ⟨s, hrun, hpos, hbuf⟩ := forRange_fill_prefix _ _ (fun _ => 0) phrase.length hphrB
      s1 (prePtrs lm.order seg.startPos) (phrase.length + (lm.order - 1)) hb1'
      (by rw [hp1, prePtrs_length]) t (by omega) ht
    refine ⟨s, hrun, by rw [hpos, prePtrs_length], ?_⟩
    have hidx : lm.order - 1 + t = (prePtrs lm.order seg.startPos).length + t := by
      rw [prePtrs_length]
    have htake : (contextPtrs lm.order seg phrase.length h.length).take (lm.order - 1 + t)
        = prePtrs lm.order seg.startPos ++ (List.range t).map WordPtr.phrase := by
      rw [contextPtrs, List.append_assoc, hidx, List.take_append,
        List.take_append_of_le_length (by rw [phrasePtrs_length]; exact ht), hphr t ht]
    rw [hbuf, htake]
    congr 2
    omega
  obtain ⟨s2, hs2, hp2, hb2⟩ := L2 phrase.length (Nat.le_refl _)
  have hb2' : s2.lmcontext = (prePtrs lm.order seg.startPos ++ phrasePtrs phrase.length)
      ++ List.replicate (lm.order - 1) WordPtr.null := by
    have hidx : lm.order - 1 + phrase.length
        = (prePtrs lm.order seg.startPos ++ phrasePtrs phrase.length).length + 0 := by
      rw [List.length_append, prePtrs_length, phrasePtrs_length]
      rfl
    rw [hb2, contextPtrs, hidx, List.take_append, List.take_zero, List.append_nil]
    congr 2
    rw [List.length_append, prePtrs_length, phrasePtrs_length]
    omega
  -- the post-context loop
  have L3 : ∀ t, t ≤ lm.order - 1 → ∃ s,
      forRange (postContextStep h seg) t 0 s2 = some s ∧
      s.contextPos = lm.order - 1 + phrase.length + t ∧
      s.lmcontext = (contextPtrs lm.order seg phrase.length h.length).take
          (lm.order - 1 + phrase.length + t)
        ++ List.replicate
            (phrase.length + 2 * (lm.order - 1) - (lm.order - 1 + phrase.length + t))
            WordPtr.null := by
    intro t ht
    obtain ⟨s, hrun, hpos, hbuf⟩ := forRange_fill_prefix _ _ _ (lm.order - 1) hpostB
      s2 (prePtrs lm.order seg.startPos ++ phrasePtrs phrase.length) (lm.order - 1) hb2'
      (by rw [hp2, List.length_append, prePtrs_length, phrasePtrs_length]) t ht ht
    refine ⟨s, hrun, by rw [hpos, List.length_append, prePtrs_length, phrasePtrs_length], ?_⟩
    have hidx : lm.order - 1 + phrase.length + t
        = (prePtrs lm.order seg.startPos ++ phrasePtrs phrase.length).length + t := by
      rw [List.length_append, prePtrs_length, phrasePtrs_length]
    have htake : (contextPtrs lm.order seg phrase.length h.length).take
          (lm.order - 1 + phrase.length + t)
        = prePtrs lm.order seg.startPos ++ phrasePtrs phrase.length
          ++ (List.range t).map (fun i =>
              if h.length ≤ i + seg.endPos + 1 then WordPtr.sentenceEnd
              else WordPtr.target (i + seg.endPos + 1)) := by
      rw [contextPtrs, hidx, List.take_append, hpost t ht]
    rw [hbuf, htake]
    congr 2
    omega
  obtain ⟨s3, hs3, hp3, hb3⟩ := L3 (lm.order - 1) (Nat.le_refl _)
  have hfill : fillContext lm.order h phrase seg = some s3 := by
    simp only [fillContext, hs1, hs2, hs3, Option.some_bind]
  have hfinal : s3.lmcontext = contextPtrs lm.order seg phrase.length h.length := by
    have hclosed := fillContext_eq_contextPtrs lm.order h phrase seg hdef
    rw [hfill] at hclosed
    rw [Option.some.inj hclosed]
  refine ⟨contextPtrs lm.order seg phrase.length h.length, s1, s2, s3,
    contextPtrs_length _ _ _ _, ?_, L1, hs1, L2, hs2, L3, hs3, hfill, hfinal, ?_,
    ⟨_, lmNgrams_eq lm h phrase seg hdef⟩, ⟨_, lmScore_isSome lm h phrase seg hdef⟩⟩
  · intro p hp
    exact contextPtrs_mem lm.order seg phrase.length h.length hstart p hp
  · rw [hp3]
    omega

/-- C13, instance: the hypothesis `[The, cat, sat]` with a bigram model, span
`[2,2]` and phrase `[slept, quietly]`: four slots, all written, and a score. -/
theorem C13_safety_witness :
    ∃ (final : List WordPtr) (s3 : FillState),
      final.length = 4 ∧ WordPtr.null ∉ final ∧
      fillContext 2 ["The", "cat", "sat"] ["slept", "quietly"] ⟨2, 2⟩ = some s3 ∧
      s3.lmcontext = final ∧
      ∃ lmscore, lmScore (exampleLM 2 fun _ => 0) ["The", "cat", "sat"] ["slept", "quietly"]
        ⟨2, 2⟩ = some lmscore := by
  obtain ⟨final, _, _, s3, hlen, hmem, _, _, _, _, _, _, hfill, hbuf, _, _, hscore⟩ :=
    C13_safety (exampleLM 2 fun _ => 0) ["The", "cat", "sat"] ["slept", "quietly"] ⟨2, 2⟩
      (by decide) (by decide) (by decide)
  exact ⟨final, s3, hlen, fun hnull => (hmem _ hnull).1 rfl, hfill, hbuf, hscore⟩

end Moses
